import Mathlib

/-!
Verification of the compressed-sparse-matrix indexing, mutation and reduction
engine of `cupyx/scipy/sparse/_compressed.py` against its specification.

The device kernels embedded as strings in `_compressed.py` are translated as
sequential Lean functions: one GPU lane (one `tid`, i.e. one major row)
becomes one function application, and the per-row loops are translated loop
by loop.  Where a kernel serialises concurrent writes through an atomic
per-row cursor (`fill_B`), the embedding serialises the lanes of a row in
storage order; the cursor makes each entry's writes contiguous, so the row's
output segment is the concatenation of the per-entry runs in that order.

Repository primitives that are called from `_compressed.py` but whose sources
are not part of the provided tree (the `cupyx/scipy/sparse/_index.py` helpers
and the `cupy` array primitives `argsort`, `cumsum`, `diff`) are modelled
from the specification text; each such definition carries a doc comment
starting with `Modelled from the spec:`.

Matrix values are modelled as rationals; the floating-point values seen by
the reduction kernels are modelled by `FP`, a rational extended with a NaN
point, which is exactly the fragment of IEEE behaviour those kernels inspect
(`x != x` detects NaN, and every ordered comparison against NaN is false).
All functions are computable, so concrete runs are settled by `decide`.
-/

namespace CupySparse

/-- A double as the reduction kernels observe it: NaN or an ordered value. -/
inductive FP where
  | nan : FP
  | val : ℚ → FP
deriving DecidableEq, Repr

/-- The NaN test `data[entry] != data[entry]` of the kernels. -/
def FP.isNan : FP → Bool
  | .nan => true
  | .val _ => false

/-- The C comparison `a > b` on doubles: false whenever either side is NaN. -/
def FP.gt : FP → FP → Bool
  | .val a, .val b => a > b
  | _, _ => false

/-- The C comparison `a < b` on doubles: false whenever either side is NaN. -/
def FP.lt : FP → FP → Bool
  | .val a, .val b => a < b
  | _, _ => false

/-- Embeds the scan loop of `_max_min_reduction_code`: starting from the
accumulator `acc`, walk the stored values of one major row in storage order;
a NaN forces the result to NaN and breaks, otherwise the accumulator is
replaced whenever `data[entry] op running_value` holds. -/
def maxMinScan (op : FP → FP → Bool) : List FP → FP → FP
  | [], acc => acc
  | d :: rest, acc =>
    if d.isNan then .nan
    else if op d acc then maxMinScan op rest d
    else maxMinScan op rest acc

/-- Embeds `_max_min_reduction_code` for one `tid`: `row` is the slice
`data[x[tid]:y[tid]]` of one major row, `length` the theoretical (dense) row
length.  `cond`, applied to `block_length` and `length`, selects the initial
accumulator: the first stored value when it holds, `0` otherwise. -/
def maxMinReduction (op : FP → FP → Bool) (cond : Nat → Nat → Bool)
    (row : List FP) (length : Nat) : FP :=
  maxMinScan op row (if cond row.length length then row.headD (.val 0) else .val 0)

/-- Embeds `_max_reduction_kern` (`op = >`, `cond = block_length == length`). -/
def max_reduction (row : List FP) (length : Nat) : FP :=
  maxMinReduction FP.gt (fun bl len => bl == len) row length

/-- Embeds `_max_nonzero_reduction_kern` (`op = >`, `cond = block_length > 0`). -/
def max_nonzero_reduction (row : List FP) (length : Nat) : FP :=
  maxMinReduction FP.gt (fun bl _ => bl > 0) row length

/-- Embeds `_min_reduction_kern` (`op = <`, `cond = block_length == length`). -/
def min_reduction (row : List FP) (length : Nat) : FP :=
  maxMinReduction FP.lt (fun bl len => bl == len) row length

/-- Embeds `_min_nonzero_reduction_kern` (`op = <`, `cond = block_length > 0`). -/
def min_nonzero_reduction (row : List FP) (length : Nat) : FP :=
  maxMinReduction FP.lt (fun bl _ => bl > 0) row length

/-- Embeds the initial-index search of `_argmax_argmin_code` for a block that
has at least one implicit zero: `data_index` runs from 0 with `length` loop
iterations available; the loop breaks as soon as
`data_index != indices[x + data_index] || x + data_index >= y`.  The fuel
argument counts the remaining iterations of the `for` loop. -/
def argGapLoopAux (indices : List Nat) (x y : Nat) : Nat → Nat → Nat
  | 0, d => d
  | fuel + 1, d =>
    if d ≠ indices.getD (x + d) 0 ∨ x + d ≥ y then d
    else argGapLoopAux indices x y fuel (d + 1)

/-- The initial-index search of `_argmax_argmin_code`, started at
`data_index = 0` with `length` iterations. -/
def argGapLoop (indices : List Nat) (x y length : Nat) : Nat :=
  argGapLoopAux indices x y length 0

/-- Embeds the accumulator initialisation of `_argmax_argmin_code` for one
`tid`: a dense block starts from its first stored value and stored index, a
partially-filled block starts from value 0 at the first zero gap, and an
empty block starts from value 0 at index 0. -/
def argReductionInit (data : List FP) (indices : List Nat) (x y length : Nat) :
    FP × Nat :=
  let blockLength := y - x
  if blockLength = length then (data.getD x (.val 0), indices.getD x 0)
  else if blockLength > 0 then (.val 0, argGapLoop indices x y length)
  else (.val 0, 0)

/-- Embeds the scan loop of `_argmax_argmin_code`: entries are the
(value, stored minor index) pairs of one major row in storage order; a NaN
sets the reported index to 0 and breaks; otherwise the (index, value) pair is
replaced whenever `data[entry] op data_value` holds.  Returns the reported
index `z[tid]`. -/
def argScanLoop (op : FP → FP → Bool) : List (FP × Nat) → FP → Nat → Nat
  | [], _, di => di
  | e :: rest, dv, di =>
    if e.1.isNan then 0
    else if op e.1 dv then argScanLoop op rest e.1 e.2
    else argScanLoop op rest dv di

/-- Embeds `_argmax_argmin_code` for one `tid`: `x`/`y` delimit the block of
one major row inside the flat `data`/`indices` arrays and `length` is the
theoretical row length; returns the reported index. -/
def argReduction (op : FP → FP → Bool) (data : List FP) (indices : List Nat)
    (x y length : Nat) : Nat :=
  let init := argReductionInit data indices x y length
  argScanLoop op (((data.drop x).take (y - x)).zip ((indices.drop x).take (y - x)))
    init.1 init.2

/-- Embeds `max_arg_reduction` (`op = >`). -/
def max_arg_reduction (data : List FP) (indices : List Nat) (x y length : Nat) : Nat :=
  argReduction FP.gt data indices x y length

/-- Embeds `min_arg_reduction` (`op = <`). -/
def min_arg_reduction (data : List FP) (indices : List Nat) (x y length : Nat) : Nat :=
  argReduction FP.lt data indices x y length

/-- The three backing arrays of a compressed (CSR/CSC) matrix, expressed over
the major/minor axes: values, stored minor positions, and per-major-row
offsets.  Matches the `data`/`indices`/`indptr` attributes of
`_compressed_sparse_matrix`; values are modelled as rationals. -/
structure CSR where
  data : List ℚ
  indices : List Nat
  indptr : List Nat
deriving DecidableEq, Repr

/-- Offset of the first stored entry of major row `r` (`indptr[r]`). -/
def rowStart (m : CSR) (r : Nat) : Nat := m.indptr.getD r 0

/-- Offset one past the last stored entry of major row `r` (`indptr[r+1]`). -/
def rowEnd (m : CSR) (r : Nat) : Nat := m.indptr.getD (r + 1) 0

/-- The (minor index, value) pairs stored for major row `r`, in storage
order: the slice `[indptr[r], indptr[r+1])` of `zip indices data`. -/
def rowEntries (m : CSR) (r : Nat) : List (Nat × ℚ) :=
  ((m.indices.zip m.data).drop (rowStart m r)).take (rowEnd m r - rowStart m r)

/-- Embeds `getnnz()`: the number of stored values, `data.size`. -/
def nnz (m : CSR) : Nat := m.data.length

/-- Embeds the shape-only constructor branch of `__init__`: empty `data` and
`indices`, and an all-zero `indptr` of length `major + 1`. -/
def emptyCSR (M : Nat) : CSR :=
  ⟨[], [], List.replicate (M + 1) 0⟩

/-- Adjacent non-decrease of a list, as a boolean (so that concrete
well-formedness checks compute). -/
def monoBool (l : List Nat) : Bool :=
  (l.zip l.tail).all (fun p => p.1 ≤ p.2)

/-- Well-formedness of a compressed matrix with major dimension `M` and minor
dimension `N`: the invariants stated in the data-model section of the spec
(array lengths, `indptr[0] = 0`, `indptr[major] = nnz`, monotone `indptr`,
minor indices in range). -/
structure WF (m : CSR) (M N : Nat) : Prop where
  hlen : m.indices.length = m.data.length
  hptr : m.indptr.length = M + 1
  hhead : m.indptr.headD 0 = 0
  hlast : m.indptr.getLastD 0 = m.data.length
  hchain : monoBool m.indptr = true
  hbound : ∀ c ∈ m.indices, c < N

/-- Modelled from the spec: `cupy.cumsum` (an array primitive outside the
provided tree) computes inclusive prefix sums. -/
def cumsum (l : List Nat) : List Nat :=
  (List.range l.length).map (fun c => (l.take (c + 1)).sum)

/-- The positions (in increasing order) at which the array `idx` holds the
value `c`. -/
def posOf (idx : List Nat) (c : Nat) : List Nat :=
  (List.range idx.length).filter (fun k => idx.getD k 0 = c)

/-- Modelled from the spec: `cupy.argsort` (an array primitive outside the
provided tree) computes a stable ordering of `idx`.  For an index array whose
values lie in `[0, N)` the stable argsort is the counting-sort order: all
positions holding value 0 in increasing order, then all positions holding
value 1, and so on. -/
def argsortStable (N : Nat) (idx : List Nat) : List Nat :=
  (List.range N).flatMap (fun v => posOf idx v)

/-- Embeds `_bincount_kernel`: starting from `zeros(N)`, every element `v` of
`idx` atomically increments slot `v`; the atomic adds are serialised in
position order. -/
def bincount (N : Nat) (idx : List Nat) : List Nat :=
  idx.foldl (fun cnt v => cnt.set v (cnt.getD v 0 + 1)) (List.replicate N 0)

/-- Embeds `_calc_Bp_kernel` for one row: the number of output entries row
`r` contributes, `sum over its stored entries of col_cnt[Aj[p]]` (the warp
reduction computes exactly this sum). -/
def rowKeptCount (m : CSR) (cnt : List Nat) (r : Nat) : Nat :=
  ((rowEntries m r).map (fun e => cnt.getD e.1 0)).sum

/-- Embeds `_fill_B_kernel` for one row: each stored entry `(col, v)` locates
its run `[start, stop)` in `col_order` via `col_offset`, reserves `cnt`
contiguous output slots by advancing the atomic per-row cursor, and writes
`col_order[start + k]` / `v` into them; serialising the lanes in storage
order makes the row's output the concatenation of the runs. -/
def fillRowB (colOffset colOrder : List Nat) (row : List (Nat × ℚ)) :
    List (Nat × ℚ) :=
  row.flatMap (fun e =>
    let stop := colOffset.getD e.1 0
    let start := if e.1 = 0 then 0 else colOffset.getD (e.1 - 1) 0
    (List.range (stop - start)).map (fun k => (colOrder.getD (start + k) 0, e.2)))

/-- Embeds `_minor_index_fancy`: histogram of `idx` (`_bincount`), per-row
output counts (`_calc_Bp_minor`), prefix-summed into the new `indptr`,
stable ordering and offsets of `idx`, and the `fill_B` write phase; rows are
written at their `Bp` offsets, i.e. concatenated in row order. -/
def minor_index_fancy (m : CSR) (M N : Nat) (idx : List Nat) : CSR :=
  if m.data.length = 0 ∨ idx.length = 0 then emptyCSR M
  else
    let colCounts := bincount N idx
    let colOrder := argsortStable N idx
    let colOffset := cumsum colCounts
    let Bp := 0 :: cumsum ((List.range M).map (fun r => rowKeptCount m colCounts r))
    let rows := (List.range M).map
      (fun r => fillRowB colOffset colOrder (rowEntries m r))
    ⟨rows.flatten.map Prod.snd, rows.flatten.map Prod.fst, Bp⟩

/-- Modelled from the spec: `cupy.diff` over `indptr` (an array primitive
outside the provided tree), the adjacent differences, i.e. the per-row
stored-entry counts. -/
def diffList : List Nat → List Nat
  | [] => []
  | [_] => []
  | a :: b :: t => (b - a) :: diffList (b :: t)

/-- Embeds the fancy scatter-add `indptr_diff[rows] += row_counts`: the
position/value pairs are applied in order. -/
def scatterAdd (base : List Nat) (pos vals : List Nat) : List Nat :=
  (pos.zip vals).foldl (fun acc p => acc.set p.1 (acc.getD p.1 0 + p.2)) base

/-- The value of the last occurrence of key `k` (a (major, minor) pair) in
the triple list `ps`, or 0 when the key does not occur. -/
def lastVal (ps : List (Nat × Nat × ℚ)) (k : Nat × Nat) : ℚ :=
  ((ps.filter (fun t => (t.1, t.2.1) = k)).map (fun t => t.2.2)).getLastD 0

/-- Modelled from the spec: `_select_last_indices` (not in the provided
tree).  Given the batch triples already stably sorted by major index, it
keeps, for each distinct (major, minor) pair, only the last occurrence (last
write wins), and returns the kept triples sorted by (major, minor) so that
each row's insertions are sorted by minor index.  `M`/`N` bound the
coordinate values. -/
def selectLast (M N : Nat) (ps : List (Nat × Nat × ℚ)) : List (Nat × Nat × ℚ) :=
  (List.range M).flatMap (fun r =>
    ((List.range N).filter
        (fun c => (r, c) ∈ ps.map (fun t => (t.1, t.2.1)))).map
      (fun c => (r, c, lastVal ps (r, c))))

/-- The two-way merge loop, with explicit fuel (one unit per emitted entry;
the fuel never runs out when it starts at the sum of the lengths). -/
def mergeByIdxAux : Nat → List (Nat × ℚ) → List (Nat × ℚ) → List (Nat × ℚ)
  | 0, xs, ys => xs ++ ys
  | _ + 1, [], ys => ys
  | _ + 1, x :: xs, [] => x :: xs
  | fuel + 1, x :: xs, y :: ys =>
    if x.1 ≤ y.1 then x :: mergeByIdxAux fuel xs (y :: ys)
    else y :: mergeByIdxAux fuel (x :: xs) ys

/-- Modelled from the spec: `_insert_many_populate_arrays` (not in the
provided tree) interleaves one row's pre-existing (sorted) entries with its
newly inserted (sorted) entries, preserving per-row sort order: a two-way
merge on the minor index. -/
def mergeByIdx (xs ys : List (Nat × ℚ)) : List (Nat × ℚ) :=
  mergeByIdxAux (xs.length + ys.length) xs ys

/-- Embeds `_perform_insert` applied to the selected insert triples `ins`
(sorted by row): `rows` are the distinct major values (`cupy.unique`),
`row_counts` their multiplicities (the `add.at`/`searchsorted` count), the
new `indptr` is the prefix sum of `diff(indptr)` with the counts
scatter-added, and the population step (modelled, see `mergeByIdx`) merges
each row's old entries with its insertions; the three arrays are replaced
wholesale. -/
def perform_insert (m : CSR) (M : Nat) (ins : List (Nat × Nat × ℚ)) : CSR :=
  let ii := ins.map (fun t => t.1)
  let rows := ii.dedup
  let rowCounts := rows.map (fun r => ii.count r)
  let indptrDiff := scatterAdd (diffList m.indptr) rows rowCounts
  let newIndptr := 0 :: cumsum indptrDiff
  let rowsNew := (List.range M).map (fun r =>
    mergeByIdx (rowEntries m r)
      ((ins.filter (fun t => t.1 = r)).map (fun t => (t.2.1, t.2.2))))
  ⟨rowsNew.flatten.map Prod.snd, rowsNew.flatten.map Prod.fst, newIndptr⟩

/-- Embeds `_insert_many`: stable argsort of the batch by major index, the
last-write-wins duplicate selection (`_select_last_indices`, modelled), and
`_perform_insert`.  The index-dtype widening step is a no-op in this model. -/
def insert_many (m : CSR) (M N : Nat) (i j : List Nat) (x : List ℚ) : CSR :=
  let ord := argsortStable M i
  let tripSorted := ord.map (fun k => (i.getD k 0, j.getD k 0, x.getD k 0))
  perform_insert m M (selectLast M N tripSorted)

/-- Wrap of a possibly-negative coordinate around a dimension bound, as the
lookup kernels and the insertion path (`i[i < 0] += M`) perform it. -/
def wrapIdx (bound : Nat) (v : Int) : Nat :=
  (if v < 0 then v + bound else v).toNat

/-- Modelled from the spec: `_csr_sample_values` (not in the provided tree)
looks up each coordinate independently in the sparsity pattern; an absent
coordinate resolves to the not-found value (here `none`), a present one to
the storage offset of its stored entry (the throwaway matrix built by
`_set_many`/`_zero_many` stores the entry ids `0..nnz-1` as data, so the
sampled value is that offset); negative coordinates wrap around the
corresponding dimension. -/
def sampleOffset (m : CSR) (M N : Nat) (iv jv : Int) : Option Nat :=
  let r := wrapIdx M iv
  let c := wrapIdx N jv
  let s := rowStart m r
  let e := rowEnd m r
  ((List.range (e - s)).find? (fun q => m.indices.getD (s + q) 0 = c)).map
    (fun q => s + q)

/-- Embeds `.max()` over a (nonempty) index array. -/
def listMax (l : List Int) : Int := l.foldl max (l.headD 0)

/-- Embeds `.min()` over a (nonempty) index array. -/
def listMin (l : List Int) : Int := l.foldl min (l.headD 0)

/-- The message of the upper-bound index error,
`index (%d) out of range (>= %d)`. -/
def boundErrGe (v : Int) (bound : Nat) : String :=
  "index (" ++ toString v ++ ") out of range (>= " ++ toString bound ++ ")"

/-- The message of the lower-bound index error,
`index (%d) out of range (< -%d)`. -/
def boundErrLt (v : Int) (bound : Nat) : String :=
  "index (" ++ toString v ++ ") out of range (< -" ++ toString bound ++ ")"

/-- Embeds `check_bounds` of `_prepare_indices`: the maximum is tested
against `bound` first, then the minimum against `-bound`; the raised message
reports the offending extremum and the bound. -/
def check_bounds (l : List Int) (bound : Nat) : Except String Unit :=
  if listMax l ≥ (bound : Int) then Except.error (boundErrGe (listMax l) bound)
  else if listMin l < -(bound : Int) then Except.error (boundErrLt (listMin l) bound)
  else Except.ok ()

/-- Embeds `_prepare_indices`: bounds-check the major coordinates against
`M`, then the minor coordinates against `N`; the dtype conversions and
ravel are no-ops in this model. -/
def prepare_indices (M N : Nat) (i j : List Int) :
    Except String (List Int × List Int) :=
  match check_bounds i M with
  | Except.error e => Except.error e
  | Except.ok _ =>
    match check_bounds j N with
    | Except.error e => Except.error e
    | Except.ok _ => Except.ok (i, j)

/-- Embeds `_set_many`: prepare/validate the indices, sample the storage
offsets of all coordinates, overwrite the data at the found offsets with the
corresponding `x` values, and, when some coordinates are absent, route those
(wrapped non-negative) to `_insert_many`.  A bounds failure aborts before any
write. -/
def set_many (m : CSR) (M N : Nat) (i j : List Int) (x : List ℚ) :
    Except String CSR :=
  match prepare_indices M N i j with
  | Except.error e => Except.error e
  | Except.ok _ =>
    let offsets := (i.zip j).map (fun p => sampleOffset m M N p.1 p.2)
    let data1 := (offsets.zip x).foldl
      (fun d p => match p.1 with | some k => d.set k p.2 | none => d) m.data
    if offsets.all (fun o => o.isSome) then Except.ok { m with data := data1 }
    else
      let keep := ((i.zip j).zip x).filter
        (fun p => (sampleOffset m M N p.1.1 p.1.2).isNone)
      Except.ok (insert_many { m with data := data1 } M N
        (keep.map (fun p => wrapIdx M p.1.1))
        (keep.map (fun p => wrapIdx N p.1.2))
        (keep.map (fun p => p.2)))

/-- Embeds `_zero_many`: prepare/validate the indices, sample the storage
offsets, and overwrite the data at the found offsets with zero; absent
coordinates are skipped and the sparsity structure is untouched. -/
def zero_many (m : CSR) (M N : Nat) (i j : List Int) : Except String CSR :=
  match prepare_indices M N i j with
  | Except.error e => Except.error e
  | Except.ok _ =>
    let offsets := (i.zip j).map (fun p => sampleOffset m M N p.1 p.2)
    let data1 := offsets.foldl
      (fun d o => match o with | some k => d.set k 0 | none => d) m.data
    Except.ok { m with data := data1 }

/-- Modelled from the spec: `_get_csr_submatrix_major_axis` (not in the
provided tree) extracts the single row `[major, major+1)`, and
`_compress_getitem_kern` (not in the provided tree) scans it for the minor
index, answering the stored value, or the additive identity 0 when the
coordinate is absent. -/
def compress_getitem (row : List (Nat × ℚ)) (minor : Nat) : ℚ :=
  ((row.find? (fun e => e.1 = minor)).map (fun e => e.2)).getD 0

/-- Embeds `_get_intXint` for the (major, minor) pair after `_swap`: extract
row `r` and look up minor position `c`.  A pure function of the matrix: the
matrix is not mutated. -/
def get_intXint (m : CSR) (r c : Nat) : ℚ :=
  compress_getitem (rowEntries m r) c

/-- The stored value at (major r, minor c), when the coordinate is present in
the sparsity pattern (the first stored entry of row `r` with minor index
`c`). -/
def lookupRow (m : CSR) (r c : Nat) : Option ℚ :=
  ((rowEntries m r).find? (fun e => e.1 = c)).map (fun e => e.2)

/-- A compressed matrix together with the two lazily cached format flags of
`_compressed_sparse_matrix`; `none` models a not-yet-set Python attribute
(the Unknown state). -/
structure CMat where
  mat : CSR
  sortedCache : Option Bool
  canonicalCache : Option Bool
deriving DecidableEq, Repr

/-- The stored minor indices of major row `r` (the slice of `indices`). -/
def rowSlice (m : CSR) (r : Nat) : List Nat :=
  ((m.indices.drop (rowStart m r)).take (rowEnd m r - rowStart m r))

/-- Embeds `_has_sorted_indices_kern` for one row: adjacent stored indices
must be non-decreasing. -/
def has_sorted_row (m : CSR) (r : Nat) : Bool :=
  let l := rowSlice m r
  (l.zip l.tail).all (fun p => p.1 ≤ p.2)

/-- Embeds `_has_canonical_format_kern` for one row: `indptr` must not
invert, and adjacent stored indices must strictly increase. -/
def has_canonical_row (m : CSR) (r : Nat) : Bool :=
  if rowEnd m r < rowStart m r then false
  else
    let l := rowSlice m r
    (l.zip l.tail).all (fun p => p.1 < p.2)

/-- The all-rows aggregation of `_has_sorted_indices_kern` (`.all()`). -/
def has_sorted_all (m : CSR) : Bool :=
  (List.range (m.indptr.length - 1)).all (fun r => has_sorted_row m r)

/-- The all-rows aggregation of `_has_canonical_format_kern` (`.all()`). -/
def has_canonical_all (m : CSR) : Bool :=
  (List.range (m.indptr.length - 1)).all (fun r => has_canonical_row m r)

/-- Embeds `__get_sorted`: an empty matrix sets and returns True; otherwise a
cached value is returned as is, and an absent cache is computed by the kernel
and stored. -/
def get_has_sorted_indices (s : CMat) : Bool × CMat :=
  if s.mat.data.length = 0 then (true, { s with sortedCache := some true })
  else
    match s.sortedCache with
    | some b => (b, s)
    | none => (has_sorted_all s.mat, { s with sortedCache := some (has_sorted_all s.mat) })

/-- Embeds `__get_has_canonical_format`: an empty matrix sets and returns
True; a sorted-flag cached False forces (and caches) False; otherwise a
cached value is returned as is, and an absent cache is computed by the kernel
and stored. -/
def get_has_canonical_format (s : CMat) : Bool × CMat :=
  if s.mat.data.length = 0 then (true, { s with canonicalCache := some true })
  else if s.sortedCache.getD true = false then
    (false, { s with canonicalCache := some false })
  else
    match s.canonicalCache with
    | some b => (b, s)
    | none =>
      (has_canonical_all s.mat, { s with canonicalCache := some (has_canonical_all s.mat) })

/-- Embeds the effect of `_insert_many`/`_perform_insert` on the full object
state: the three backing arrays are replaced, and the cached flag attributes
are not touched by either function. -/
def insert_many_full (s : CMat) (M N : Nat) (i j : List Nat) (x : List ℚ) : CMat :=
  { s with mat := insert_many s.mat M N i j x }

/-- Embeds the effect of `_zero_many` on the full object state: only `data`
values change; the cached flag attributes are not touched. -/
def zero_many_full (s : CMat) (M N : Nat) (i j : List Int) :
    Except String CMat :=
  match zero_many s.mat M N i j with
  | Except.error e => Except.error e
  | Except.ok m1 => Except.ok { s with mat := m1 }

lemma getD_of_lt {α : Type} (l : List α) (d : α) {i : Nat} (h : i < l.length) :
    l.getD i d = l[i] := List.getD_eq_getElem l d h

lemma getD_range_map {α : Type} (f : Nat → α) {n i : Nat} (d : α) (h : i < n) :
    ((List.range n).map f).getD i d = f i := by
  rw [getD_of_lt _ _ (by simpa using h)]
  simp

lemma le_foldl_max (l : List Int) (a : Int) : a ≤ l.foldl max a := by
  induction l generalizing a with
  | nil => exact le_refl a
  | cons b t ih => exact le_trans (le_max_left a b) (ih (max a b))

lemma mem_le_foldl_max (l : List Int) (a : Int) {v : Int} (h : v ∈ l) :
    v ≤ l.foldl max a := by
  induction l generalizing a with
  | nil => cases h
  | cons b t ih =>
    rcases List.mem_cons.mp h with rfl | h1
    · exact le_trans (le_max_right a v) (le_foldl_max t (max a v))
    · exact ih _ h1

lemma foldl_min_le (l : List Int) (a : Int) : l.foldl min a ≤ a := by
  induction l generalizing a with
  | nil => exact le_refl a
  | cons b t ih => exact le_trans (ih (min a b)) (min_le_left a b)

lemma foldl_min_le_mem (l : List Int) (a : Int) {v : Int} (h : v ∈ l) :
    l.foldl min a ≤ v := by
  induction l generalizing a with
  | nil => cases h
  | cons b t ih =>
    rcases List.mem_cons.mp h with rfl | h1
    · exact le_trans (foldl_min_le t (min a v)) (min_le_right a v)
    · exact ih _ h1

lemma le_listMax {l : List Int} {v : Int} (h : v ∈ l) : v ≤ listMax l :=
  mem_le_foldl_max l _ h

lemma listMin_le {l : List Int} {v : Int} (h : v ∈ l) : listMin l ≤ v :=
  foldl_min_le_mem l _ h

lemma foldl_max_mem (l : List Int) (a : Int) :
    l.foldl max a = a ∨ l.foldl max a ∈ l := by
  induction l generalizing a with
  | nil => exact Or.inl rfl
  | cons b t ih =>
    rcases ih (max a b) with h | h
    · rcases max_choice a b with h1 | h1
      · rw [show (b :: t).foldl max a = t.foldl max (max a b) from rfl, h, h1]
        exact Or.inl rfl
      · rw [show (b :: t).foldl max a = t.foldl max (max a b) from rfl, h, h1]
        exact Or.inr (List.mem_cons_self b t)
    · exact Or.inr (List.mem_cons_of_mem b h)

lemma foldl_min_mem (l : List Int) (a : Int) :
    l.foldl min a = a ∨ l.foldl min a ∈ l := by
  induction l generalizing a with
  | nil => exact Or.inl rfl
  | cons b t ih =>
    rcases ih (min a b) with h | h
    · rcases min_choice a b with h1 | h1
      · rw [show (b :: t).foldl min a = t.foldl min (min a b) from rfl, h, h1]
        exact Or.inl rfl
      · rw [show (b :: t).foldl min a = t.foldl min (min a b) from rfl, h, h1]
        exact Or.inr (List.mem_cons_self b t)
    · exact Or.inr (List.mem_cons_of_mem b h)

lemma listMax_mem {l : List Int} (h : l ≠ []) : listMax l ∈ l := by
  rcases foldl_max_mem l (l.headD 0) with h1 | h1
  · rw [listMax, h1]
    cases l with
    | nil => exact absurd rfl h
    | cons a t => exact List.mem_cons_self a t
  · exact h1

lemma listMin_mem {l : List Int} (h : l ≠ []) : listMin l ∈ l := by
  rcases foldl_min_mem l (l.headD 0) with h1 | h1
  · rw [listMin, h1]
    cases l with
    | nil => exact absurd rfl h
    | cons a t => exact List.mem_cons_self a t
  · exact h1

lemma find?_eq_of_unique {α : Type} (l : List α) (p : α → Bool) (a : α)
    (ha : a ∈ l) (hpa : p a) (huniq : ∀ b ∈ l, p b → b = a) :
    l.find? p = some a := by
  induction l with
  | nil => cases ha
  | cons hd t ih =>
    by_cases hp : p hd
    · rw [List.find?_cons_of_pos _ hp]
      rw [huniq hd (List.mem_cons_self hd t) hp]
    · rw [List.find?_cons_of_neg _ hp]
      rcases List.mem_cons.mp ha with rfl | h1
      · exact absurd hpa hp
      · exact ih h1 (fun b hb hpb => huniq b (List.mem_cons_of_mem hd hb) hpb)

lemma maxMinScan_val_gt (qs : List ℚ) (a : ℚ) :
    maxMinScan FP.gt (qs.map FP.val) (FP.val a) = FP.val (qs.foldl max a) := by
  induction qs generalizing a with
  | nil => rfl
  | cons q t ih =>
    have hfold : (q :: t).foldl max a = t.foldl max (max a q) := rfl
    rw [hfold]
    by_cases h : q > a
    · have hgt : FP.gt (FP.val q) (FP.val a) = true := by simp [FP.gt, h]
      simp only [List.map_cons, maxMinScan, FP.isNan, hgt, if_true, Bool.false_eq_true,
        if_false]
      rw [ih, max_eq_right h.le]
    · have hgt : FP.gt (FP.val q) (FP.val a) = false := by simp [FP.gt, h]
      simp only [List.map_cons, maxMinScan, FP.isNan, hgt, Bool.false_eq_true, if_false]
      rw [ih, max_eq_left (not_lt.mp h)]

lemma maxMinScan_val_lt (qs : List ℚ) (a : ℚ) :
    maxMinScan FP.lt (qs.map FP.val) (FP.val a) = FP.val (qs.foldl min a) := by
  induction qs generalizing a with
  | nil => rfl
  | cons q t ih =>
    have hfold : (q :: t).foldl min a = t.foldl min (min a q) := rfl
    rw [hfold]
    by_cases h : q < a
    · have hlt : FP.lt (FP.val q) (FP.val a) = true := by simp [FP.lt, h]
      simp only [List.map_cons, maxMinScan, FP.isNan, hlt, if_true, Bool.false_eq_true,
        if_false]
      rw [ih, min_eq_right h.le]
    · have hlt : FP.lt (FP.val q) (FP.val a) = false := by simp [FP.lt, h]
      simp only [List.map_cons, maxMinScan, FP.isNan, hlt, Bool.false_eq_true, if_false]
      rw [ih, min_eq_left (not_lt.mp h)]

lemma maxMinScan_nan (op : FP → FP → Bool) (row : List FP) (acc : FP)
    (h : FP.nan ∈ row) : maxMinScan op row acc = FP.nan := by
  induction row generalizing acc with
  | nil => cases h
  | cons d t ih =>
    rcases List.mem_cons.mp h with h1 | h1
    · subst h1; rfl
    · cases hn : d.isNan with
      | true => simp [maxMinScan, hn]
      | false =>
        simp only [maxMinScan, hn, Bool.false_eq_true, if_false]
        split <;> exact ih _ h1

lemma argScanLoop_nan (op : FP → FP → Bool) (l : List (FP × Nat)) (dv : FP) (di : Nat)
    (h : FP.nan ∈ l.map Prod.fst) : argScanLoop op l dv di = 0 := by
  induction l generalizing dv di with
  | nil => cases h
  | cons e t ih =>
    rcases List.mem_cons.mp h with h1 | h1
    · have : e.1.isNan = true := by rw [← h1]; rfl
      simp [argScanLoop, this]
    · cases hn : e.1.isNan with
      | true => simp [argScanLoop, hn]
      | false =>
        simp only [argScanLoop, hn, Bool.false_eq_true, if_false]
        split <;> exact ih _ _ h1

lemma argGapLoopAux_spec (ind : List Nat) (x y : Nat) (fuel d : Nat) :
    d ≤ argGapLoopAux ind x y fuel d ∧
    argGapLoopAux ind x y fuel d ≤ d + fuel ∧
    (∀ e, d ≤ e → e < argGapLoopAux ind x y fuel d →
      ¬(e ≠ ind.getD (x + e) 0 ∨ x + e ≥ y)) ∧
    (argGapLoopAux ind x y fuel d < d + fuel →
      (argGapLoopAux ind x y fuel d ≠ ind.getD (x + argGapLoopAux ind x y fuel d) 0 ∨
       x + argGapLoopAux ind x y fuel d ≥ y)) := by
  induction fuel generalizing d with
  | zero =>
    refine ⟨le_refl _, by simp [argGapLoopAux], ?_, ?_⟩
    · intro e he1 he2
      simp only [argGapLoopAux] at he2
      omega
    · intro hlt
      simp only [argGapLoopAux] at hlt ⊢
      omega
  | succ fuel ih =>
    by_cases hP : d ≠ ind.getD (x + d) 0 ∨ x + d ≥ y
    · have hres : argGapLoopAux ind x y (fuel + 1) d = d := by
        simp only [argGapLoopAux]
        rw [if_pos hP]
      refine ⟨le_of_eq hres.symm, by omega, ?_, ?_⟩
      · intro e he1 he2; rw [hres] at he2; omega
      · intro _; rw [hres]; exact hP
    · have hres : argGapLoopAux ind x y (fuel + 1) d =
          argGapLoopAux ind x y fuel (d + 1) := by
        simp only [argGapLoopAux]
        rw [if_neg hP]
      obtain ⟨ih1, ih2, ih3, ih4⟩ := ih (d + 1)
      refine ⟨by omega, by omega, ?_, ?_⟩
      · intro e he1 he2
        rw [hres] at he2
        rcases Nat.eq_or_lt_of_le he1 with rfl | hlt
        · exact hP
        · exact ih3 e hlt he2
      · intro hlt
        rw [hres] at hlt ⊢
        exact ih4 (by omega)

lemma maxMinReduction_nonzero_pos (op : FP → FP → Bool) (row : List FP) (len : Nat)
    (h : row ≠ []) :
    maxMinReduction op (fun bl _ => bl > 0) row len =
      maxMinScan op row (row.headD (FP.val 0)) := by
  simp only [maxMinReduction, gt_iff_lt]
  rw [if_pos (by simp [decide_eq_true_eq, List.length_pos, h])]

lemma maxMinReduction_dense_ne (op : FP → FP → Bool) (row : List FP) (len : Nat)
    (h : row.length ≠ len) :
    maxMinReduction op (fun bl l => bl == l) row len =
      maxMinScan op row (FP.val 0) := by
  simp only [maxMinReduction]
  rw [if_neg (by simp [h])]

/-- Claim C3: per-row max (resp. min) reduction in nonzero-only mode over a
row with at least one stored entry starts its accumulator at the first stored
value (so the result is the fold of the comparison over the stored values from
the first one, with no implicit zero participating); with nonzero-only
disabled, a row with fewer stored entries than the theoretical row length
starts at 0 (the fold starts from 0); a row with zero stored entries yields 0;
and concretely a width-5 row with stored values [-1, -3] has nonzero-only
max -1 and all-mode max 0. -/
theorem C3_reduction_accumulator_policy :
    (∀ (q : ℚ) (rest : List ℚ) (len : Nat),
      max_nonzero_reduction ((q :: rest).map FP.val) len = FP.val (rest.foldl max q) ∧
      min_nonzero_reduction ((q :: rest).map FP.val) len = FP.val (rest.foldl min q)) ∧
    (∀ (qs : List ℚ) (len : Nat), qs.length < len →
      max_reduction (qs.map FP.val) len = FP.val (qs.foldl max 0) ∧
      min_reduction (qs.map FP.val) len = FP.val (qs.foldl min 0)) ∧
    (∀ len : Nat, 0 < len →
      max_nonzero_reduction [] len = FP.val 0 ∧
      min_nonzero_reduction [] len = FP.val 0 ∧
      max_reduction [] len = FP.val 0 ∧
      min_reduction [] len = FP.val 0) ∧
    (max_nonzero_reduction [FP.val (-1), FP.val (-3)] 5 = FP.val (-1) ∧
      max_reduction [FP.val (-1), FP.val (-3)] 5 = FP.val 0) := by
  refine ⟨?_, ?_, ?_, by decide⟩
  · intro q rest len
    have hmap : (q :: rest).map FP.val = FP.val q :: rest.map FP.val := rfl
    constructor
    · rw [max_nonzero_reduction, maxMinReduction_nonzero_pos _ _ _ (by simp), hmap]
      have hgt : FP.gt (FP.val q) (FP.val q) = false := by simp [FP.gt]
      show maxMinScan FP.gt (FP.val q :: rest.map FP.val) (FP.val q) = _
      simp only [maxMinScan, FP.isNan, hgt, Bool.false_eq_true, if_false]
      exact maxMinScan_val_gt rest q
    · rw [min_nonzero_reduction, maxMinReduction_nonzero_pos _ _ _ (by simp), hmap]
      have hlt : FP.lt (FP.val q) (FP.val q) = false := by simp [FP.lt]
      show maxMinScan FP.lt (FP.val q :: rest.map FP.val) (FP.val q) = _
      simp only [maxMinScan, FP.isNan, hlt, Bool.false_eq_true, if_false]
      exact maxMinScan_val_lt rest q
  · intro qs len hlen
    have hne : (qs.map FP.val).length ≠ len := by
      simp only [List.length_map]
      omega
    constructor
    · rw [max_reduction, maxMinReduction_dense_ne _ _ _ hne]
      exact maxMinScan_val_gt qs 0
    · rw [min_reduction, maxMinReduction_dense_ne _ _ _ hne]
      exact maxMinScan_val_lt qs 0
  · intro len hlen
    have hne : ([] : List FP).length ≠ len := by simpa using by omega
    refine ⟨rfl, rfl, ?_, ?_⟩
    · rw [max_reduction, maxMinReduction_dense_ne _ _ _ hne]; rfl
    · rw [min_reduction, maxMinReduction_dense_ne _ _ _ hne]; rfl

theorem C3_reduction_accumulator_policy_witness :
    max_reduction ([(-1 : ℚ), -3].map FP.val) 5 = FP.val ([(-1 : ℚ), -3].foldl max 0) ∧
    max_nonzero_reduction [] 5 = FP.val 0 := by
  exact ⟨(C3_reduction_accumulator_policy.2.1 [-1, -3] 5 (by decide)).1,
    (C3_reduction_accumulator_policy.2.2.1 5 (by decide)).1⟩

/-- Claim C4: any major row containing a stored NaN makes every min/max
reduction kernel return NaN for that row regardless of the other values, and
makes the argmin/argmax kernels report index 0 for that row. -/
theorem C4_nan_propagation :
    (∀ (row : List FP) (len : Nat), FP.nan ∈ row →
      max_reduction row len = FP.nan ∧
      max_nonzero_reduction row len = FP.nan ∧
      min_reduction row len = FP.nan ∧
      min_nonzero_reduction row len = FP.nan) ∧
    (∀ (data : List FP) (indices : List Nat) (x y len : Nat),
      x ≤ y → y ≤ data.length → y ≤ indices.length →
      FP.nan ∈ (data.drop x).take (y - x) →
      max_arg_reduction data indices x y len = 0 ∧
      min_arg_reduction data indices x y len = 0) := by
  constructor
  · intro row len h
    exact ⟨maxMinScan_nan _ row _ h, maxMinScan_nan _ row _ h,
      maxMinScan_nan _ row _ h, maxMinScan_nan _ row _ h⟩
  · intro data indices x y len hxy hyd hyi h
    have hlen1 : ((data.drop x).take (y - x)).length = y - x := by
      simp only [List.length_take, List.length_drop]
      omega
    have hlen2 : ((indices.drop x).take (y - x)).length = y - x := by
      simp only [List.length_take, List.length_drop]
      omega
    have hfst : (((data.drop x).take (y - x)).zip
        ((indices.drop x).take (y - x))).map Prod.fst = (data.drop x).take (y - x) :=
      List.map_fst_zip _ _ (by rw [hlen1, hlen2])
    have hmem : FP.nan ∈ (((data.drop x).take (y - x)).zip
        ((indices.drop x).take (y - x))).map Prod.fst := by rw [hfst]; exact h
    exact ⟨argScanLoop_nan _ _ _ _ hmem, argScanLoop_nan _ _ _ _ hmem⟩

theorem C4_nan_propagation_witness :
    max_reduction [FP.val 2, FP.nan] 4 = FP.nan ∧
    max_arg_reduction [FP.val 2, FP.nan] [0, 3] 0 2 4 = 0 := by
  exact ⟨(C4_nan_propagation.1 [FP.val 2, FP.nan] 4 (by decide)).1,
    (C4_nan_propagation.2 [FP.val 2, FP.nan] [0, 3] 0 2 4 (by decide) (by decide)
      (by decide) (by decide)).1⟩

/-- Claim C9: for an argmin/argmax reduction over a major row with at least
one stored entry but fewer stored entries than the theoretical row length, the
initial accumulator index is the gap-scan result, which is the least position
`d` at which the expected dense index disagrees with the stored minor index
(`indices[x + d] != d`) or the stored entries are exhausted (`d >= y - x`,
the break the kernel takes via `x + d >= y`); for an all-implicit row
(no stored entries) the initial index is 0. -/
theorem C9_arg_reduction_initial_index :
    (∀ (data : List FP) (indices : List Nat) (x y len : Nat),
      x ≤ y → 0 < y - x → y - x < len →
      (argReductionInit data indices x y len).2 = argGapLoop indices x y len ∧
      (argGapLoop indices x y len ≠ indices.getD (x + argGapLoop indices x y len) 0 ∨
        argGapLoop indices x y len ≥ y - x) ∧
      (∀ d < argGapLoop indices x y len,
        indices.getD (x + d) 0 = d ∧ d < y - x)) ∧
    (∀ (data : List FP) (indices : List Nat) (x y len : Nat),
      y - x = 0 → 0 < len →
      (argReductionInit data indices x y len).2 = 0) := by
  constructor
  · intro data indices x y len hxy h0 hlen
    obtain ⟨hle, hub, hnb, hbrk⟩ := argGapLoopAux_spec indices x y len 0
    rw [show argGapLoopAux indices x y len 0 = argGapLoop indices x y len from rfl]
      at hle hub hnb hbrk
    have hPbl : (y - x ≠ indices.getD (x + (y - x)) 0 ∨ x + (y - x) ≥ y) := by
      right
      omega
    have hgle : argGapLoop indices x y len ≤ y - x := by
      by_contra hc
      push_neg at hc
      exact hnb (y - x) (Nat.zero_le _) hc hPbl
    have hPg := hbrk (by omega)
    refine ⟨?_, ?_, ?_⟩
    · simp only [argReductionInit, gt_iff_lt]
      rw [if_neg (by omega), if_pos h0]
    · rcases hPg with hg1 | hg2
      · exact Or.inl hg1
      · right; omega
    · intro d hd
      have := hnb d (Nat.zero_le _) hd
      push_neg at this
      exact ⟨this.1.symm, by omega⟩
  · intro data indices x y len hbl hlen
    simp only [argReductionInit, gt_iff_lt]
    rw [if_neg (by omega), if_neg (by omega)]

theorem C9_arg_reduction_initial_index_witness :
    (argReductionInit [FP.val 7, FP.val 8] [0, 2] 0 2 4).2 = argGapLoop [0, 2] 0 2 4 ∧
    argGapLoop [0, 2] 0 2 4 = 1 ∧
    (argReductionInit [] [] 0 0 4).2 = 0 := by
  refine ⟨(C9_arg_reduction_initial_index.1 [FP.val 7, FP.val 8] [0, 2] 0 2 4
    (by decide) (by decide) (by decide)).1, by decide,
    C9_arg_reduction_initial_index.2 [] [] 0 0 4 (by decide) (by decide)⟩

/-- Claim C10: reading either flag on a matrix with zero stored entries
returns True and stores True in the cache, overriding any previously cached
value and without consulting the per-row check kernels (the result does not
depend on `indices`/`indptr`). -/
theorem C10_empty_matrix_flags (s : CMat) (h : s.mat.data.length = 0) :
    get_has_sorted_indices s = (true, { s with sortedCache := some true }) ∧
    get_has_canonical_format s = (true, { s with canonicalCache := some true }) := by
  constructor
  · simp [get_has_sorted_indices, h]
  · simp [get_has_canonical_format, h]

theorem C10_empty_matrix_flags_witness :
    get_has_sorted_indices ⟨emptyCSR 2, some false, some false⟩ =
      (true, ⟨emptyCSR 2, some true, some false⟩) ∧
    get_has_canonical_format ⟨emptyCSR 2, some false, some false⟩ =
      (true, ⟨emptyCSR 2, some false, some true⟩) :=
  C10_empty_matrix_flags ⟨emptyCSR 2, some false, some false⟩ rfl

/-- Claim C8 counterexample: batch insertion is a structural mutation, yet on
this concrete matrix, whose flag caches hold `some true`, `_insert_many`
leaves both caches at `some true` instead of resetting them to the Unknown
state (`none`), so a later flag read returns the cached value instead of
recomputing it. -/
theorem C8_flags_reset_counterexample :
    (insert_many_full ⟨⟨[5], [1], [0, 1, 1]⟩, some true, some true⟩
        2 3 [1] [2] [3]).sortedCache = some true ∧
    (insert_many_full ⟨⟨[5], [1], [0, 1, 1]⟩, some true, some true⟩
        2 3 [1] [2] [3]).canonicalCache = some true ∧
    (get_has_sorted_indices (insert_many_full
        ⟨⟨[5], [1], [0, 1, 1]⟩, some true, some true⟩ 2 3 [1] [2] [3])).1 = true := by
  refine ⟨rfl, rfl, by decide⟩

/-- Claim C8 (amended): batch insertion does not reset the cached
`has_sorted_indices`/`has_canonical_format` flags — `_insert_many` and
`_perform_insert` replace the three backing arrays and leave any previously
cached flag value in place, so a flag read after the mutation returns the
cached value when one exists rather than recomputing it; value-only updates
(batch zero) likewise never invalidate the flags. -/
theorem C8_flags_invalidation_amended :
    (∀ (s : CMat) (M N : Nat) (i j : List Nat) (x : List ℚ),
      (insert_many_full s M N i j x).sortedCache = s.sortedCache ∧
      (insert_many_full s M N i j x).canonicalCache = s.canonicalCache) ∧
    (∀ (s : CMat) (b : Bool), s.mat.data.length ≠ 0 → s.sortedCache = some b →
      (get_has_sorted_indices s).1 = b) ∧
    (∀ (s : CMat) (M N : Nat) (i j : List Int) (s1 : CMat),
      zero_many_full s M N i j = Except.ok s1 →
      s1.sortedCache = s.sortedCache ∧ s1.canonicalCache = s.canonicalCache) := by
  refine ⟨fun s M N i j x => ⟨rfl, rfl⟩, ?_, ?_⟩
  · intro s b h hc
    simp [get_has_sorted_indices, h, hc]
  · intro s M N i j s1 h
    unfold zero_many_full at h
    cases hz : zero_many s.mat M N i j with
    | error e => rw [hz] at h; cases h
    | ok m1 =>
      rw [hz] at h
      cases h
      exact ⟨rfl, rfl⟩

theorem C8_flags_invalidation_amended_witness :
    (get_has_sorted_indices ⟨⟨[5], [1], [0, 1, 1]⟩, some false, some true⟩).1 = false ∧
    ((⟨⟨[0, 6], [1, 2], [0, 1, 2]⟩, some true, some false⟩ : CMat).sortedCache =
        (⟨⟨[5, 6], [1, 2], [0, 1, 2]⟩, some true, some false⟩ : CMat).sortedCache ∧
      (⟨⟨[0, 6], [1, 2], [0, 1, 2]⟩, some true, some false⟩ : CMat).canonicalCache =
        (⟨⟨[5, 6], [1, 2], [0, 1, 2]⟩, some true, some false⟩ : CMat).canonicalCache) := by
  constructor
  · exact C8_flags_invalidation_amended.2.1 ⟨⟨[5], [1], [0, 1, 1]⟩, some false, some true⟩
      false (by decide) rfl
  · exact C8_flags_invalidation_amended.2.2
      ⟨⟨[5, 6], [1, 2], [0, 1, 2]⟩, some true, some false⟩ 2 3 [0] [1]
      ⟨⟨[0, 6], [1, 2], [0, 1, 2]⟩, some true, some false⟩ rfl

/-- Claim C6: a batch set or batch zero whose major coordinates leave
`[-M, M)` or whose minor coordinates leave `[-N, N)` fails with an
index-range error whose message reports the offending extremum and the
violated bound; the error is raised by the up-front validation, so the whole
batch is aborted and no matrix state is produced (both operations return the
error instead of a matrix). -/
theorem C6_bounds_check_aborts (m : CSR) (M N : Nat) (i j : List Int)
    (x : List ℚ) (hi : i ≠ []) (hj : j ≠ [])
    (hbad : (∃ v ∈ i, v ≥ (M : Int) ∨ v < -(M : Int)) ∨
      (∃ v ∈ j, v ≥ (N : Int) ∨ v < -(N : Int))) :
    ∃ e : String,
      set_many m M N i j x = Except.error e ∧
      zero_many m M N i j = Except.error e ∧
      ((e = boundErrGe (listMax i) M ∧ listMax i ≥ (M : Int)) ∨
       (e = boundErrLt (listMin i) M ∧ listMin i < -(M : Int)) ∨
       (e = boundErrGe (listMax j) N ∧ listMax j ≥ (N : Int)) ∨
       (e = boundErrLt (listMin j) N ∧ listMin j < -(N : Int))) := by
  have main : ∃ e : String, prepare_indices M N i j = Except.error e ∧
      ((e = boundErrGe (listMax i) M ∧ listMax i ≥ (M : Int)) ∨
       (e = boundErrLt (listMin i) M ∧ listMin i < -(M : Int)) ∨
       (e = boundErrGe (listMax j) N ∧ listMax j ≥ (N : Int)) ∨
       (e = boundErrLt (listMin j) N ∧ listMin j < -(N : Int))) := by
    by_cases hA : listMax i ≥ (M : Int)
    · refine ⟨boundErrGe (listMax i) M, ?_, Or.inl ⟨rfl, hA⟩⟩
      rw [prepare_indices, check_bounds, if_pos hA]
    · by_cases hB : listMin i < -(M : Int)
      · refine ⟨boundErrLt (listMin i) M, ?_, Or.inr (Or.inl ⟨rfl, hB⟩)⟩
        rw [prepare_indices, check_bounds, if_neg hA, if_pos hB]
      · have hiok : check_bounds i M = Except.ok () := by
          rw [check_bounds, if_neg hA, if_neg hB]
        have hjbad : ∃ v ∈ j, v ≥ (N : Int) ∨ v < -(N : Int) := by
          rcases hbad with ⟨v, hv, hv2⟩ | h
          · exfalso
            rcases hv2 with h2 | h2
            · exact hA (le_trans h2 (le_listMax hv))
            · exact hB (lt_of_le_of_lt (listMin_le hv) h2)
          · exact h
        by_cases hC : listMax j ≥ (N : Int)
        · refine ⟨boundErrGe (listMax j) N, ?_, Or.inr (Or.inr (Or.inl ⟨rfl, hC⟩))⟩
          rw [prepare_indices, hiok, check_bounds, if_pos hC]
        · have hD : listMin j < -(N : Int) := by
            rcases hjbad with ⟨v, hv, hv2⟩
            rcases hv2 with h2 | h2
            · exact absurd (le_trans h2 (le_listMax hv)) hC
            · exact lt_of_le_of_lt (listMin_le hv) h2
          refine ⟨boundErrLt (listMin j) N, ?_, Or.inr (Or.inr (Or.inr ⟨rfl, hD⟩))⟩
          rw [prepare_indices, hiok, check_bounds, if_neg hC, if_pos hD]
  obtain ⟨e, hprep, hcase⟩ := main
  refine ⟨e, ?_, ?_, hcase⟩
  · rw [set_many, hprep]
  · rw [zero_many, hprep]

theorem C6_bounds_check_aborts_witness :
    ∃ e : String,
      set_many (emptyCSR 5) 5 5 [1, 7] [2, 4] [7, 9] = Except.error e ∧
      zero_many (emptyCSR 5) 5 5 [1, 7] [2, 4] = Except.error e ∧
      ((e = boundErrGe (listMax [1, 7]) 5 ∧ listMax [1, 7] ≥ (5 : Int)) ∨
       (e = boundErrLt (listMin [1, 7]) 5 ∧ listMin [1, 7] < -(5 : Int)) ∨
       (e = boundErrGe (listMax [2, 4]) 5 ∧ listMax [2, 4] ≥ (5 : Int)) ∨
       (e = boundErrLt (listMin [2, 4]) 5 ∧ listMin [2, 4] < -(5 : Int))) :=
  C6_bounds_check_aborts (emptyCSR 5) 5 5 [1, 7] [2, 4] [7, 9]
    (by decide) (by decide) (Or.inl ⟨7, by decide, Or.inl (by decide)⟩)

lemma monoBool_adj {l : List Nat} (h : monoBool l = true) {a : Nat}
    (ha : a + 1 < l.length) : l.getD a 0 ≤ l.getD (a + 1) 0 := by
  have ha0 : a < l.length := by omega
  have hmem : (l.getD a 0, l.getD (a + 1) 0) ∈ l.zip l.tail := by
    rw [List.mem_iff_getElem]
    refine ⟨a, by simp only [List.length_zip, List.length_tail]; omega, ?_⟩
    rw [List.getElem_zip, getD_of_lt _ _ ha0, getD_of_lt _ _ ha, List.getElem_tail]
  have := List.all_eq_true.mp h _ hmem
  exact by simpa using this

lemma monoBool_getD_mono {l : List Nat} (h : monoBool l = true) {a b : Nat}
    (hab : a ≤ b) (hb : b < l.length) : l.getD a 0 ≤ l.getD b 0 := by
  induction b with
  | zero =>
    have : a = 0 := by omega
    subst this
    exact le_refl _
  | succ b ih =>
    rcases Nat.eq_or_lt_of_le hab with rfl | hlt
    · exact le_refl _
    · exact le_trans (ih (by omega) (by omega)) (monoBool_adj h hb)

lemma WF.indptr_getD_mono {m : CSR} {M N : Nat} (hwf : WF m M N) {a b : Nat}
    (hab : a ≤ b) (hb : b ≤ M) :
    m.indptr.getD a 0 ≤ m.indptr.getD b 0 :=
  monoBool_getD_mono hwf.hchain hab (by rw [hwf.hptr]; omega)

lemma WF.indptr_getD_zero {m : CSR} {M N : Nat} (hwf : WF m M N) :
    m.indptr.getD 0 0 = 0 := by
  have := hwf.hhead
  rwa [List.headD_eq_head?, List.head?_eq_getElem?,
    ← List.getD_eq_getElem?_getD] at this

lemma WF.indptr_getD_M {m : CSR} {M N : Nat} (hwf : WF m M N) :
    m.indptr.getD M 0 = m.data.length := by
  have hlen : m.indptr.length = M + 1 := hwf.hptr
  have := hwf.hlast
  rwa [List.getLastD_eq_getLast?, List.getLast?_eq_getElem?, hlen,
    Nat.add_sub_cancel, ← List.getD_eq_getElem?_getD] at this

lemma WF.rowStart_le_rowEnd {m : CSR} {M N : Nat} (hwf : WF m M N) {r : Nat}
    (hr : r < M) : rowStart m r ≤ rowEnd m r :=
  hwf.indptr_getD_mono (Nat.le_succ r) (by omega)

lemma WF.rowEnd_le_nnz {m : CSR} {M N : Nat} (hwf : WF m M N) {r : Nat}
    (hr : r < M) : rowEnd m r ≤ m.data.length := by
  have := hwf.indptr_getD_mono (a := r + 1) (b := M) (by omega) (le_refl M)
  rwa [hwf.indptr_getD_M] at this

lemma rowEntries_length {m : CSR} {M N : Nat} (hwf : WF m M N) {r : Nat}
    (hr : r < M) :
    (rowEntries m r).length = rowEnd m r - rowStart m r := by
  have hzip : (m.indices.zip m.data).length = m.data.length := by
    rw [List.length_zip, hwf.hlen, Nat.min_self]
  have h1 := hwf.rowEnd_le_nnz hr
  have h2 := hwf.rowStart_le_rowEnd hr
  simp only [rowEntries, List.length_take, List.length_drop, hzip]
  omega

lemma rowEntries_col_mem {m : CSR} {r : Nat} {e : Nat × ℚ}
    (h : e ∈ rowEntries m r) : e.1 ∈ m.indices := by
  have h1 : e ∈ m.indices.zip m.data :=
    List.mem_of_mem_drop (List.mem_of_mem_take h)
  exact (List.of_mem_zip h1).1

lemma getD_set_self {α : Type} (l : List α) (i : Nat) (a d : α) (h : i < l.length) :
    (l.set i a).getD i d = a := by
  rw [getD_of_lt _ _ (by simpa using h)]
  exact List.getElem_set_self _

lemma getD_set_ne {α : Type} (l : List α) {i k : Nat} (a d : α) (h : i ≠ k) :
    (l.set i a).getD k d = l.getD k d := by
  by_cases hk : k < l.length
  · rw [getD_of_lt _ _ (by simpa using hk), getD_of_lt _ _ hk]
    exact List.getElem_set_ne h _
  · rw [List.getD_eq_default _ _ (by simpa using Nat.le_of_not_lt hk),
      List.getD_eq_default _ _ (Nat.le_of_not_lt hk)]

lemma foldl_zero_length (offs : List (Option Nat)) (d0 : List ℚ) :
    (offs.foldl (fun d o => match o with | some k => d.set k 0 | none => d) d0).length
      = d0.length := by
  induction offs generalizing d0 with
  | nil => rfl
  | cons o t ih =>
    cases o with
    | none => exact ih d0
    | some k0 => rw [show (some k0 :: t).foldl _ d0 = t.foldl _ (d0.set k0 0) from rfl,
        ih (d0.set k0 0), List.length_set]

lemma foldl_zero_getD (offs : List (Option Nat)) (d0 : List ℚ) (k : Nat) :
    (offs.foldl (fun d o => match o with | some k => d.set k 0 | none => d) d0).getD k 0
      = if some k ∈ offs then 0 else d0.getD k 0 := by
  induction offs generalizing d0 with
  | nil => simp
  | cons o t ih =>
    cases o with
    | none =>
      rw [show (none :: t).foldl _ d0 = t.foldl _ d0 from rfl, ih d0]
      simp
    | some k0 =>
      rw [show (some k0 :: t).foldl _ d0 = t.foldl _ (d0.set k0 0) from rfl,
        ih (d0.set k0 0)]
      by_cases hk : k0 = k
      · subst hk
        by_cases hmem : some k0 ∈ t
        · simp [hmem]
        · simp only [hmem, if_false, List.mem_cons, true_or, if_true, if_pos]
          by_cases hlt : k0 < d0.length
          · exact getD_set_self d0 k0 0 0 hlt
          · rw [List.getD_eq_default _ _ (by simpa using Nat.le_of_not_lt hlt)]
      · have hmm : (some k ∈ some k0 :: t) ↔ (some k ∈ t) := by
          constructor
          · intro h
            rcases List.mem_cons.mp h with h1 | h1
            · exact absurd (Option.some.inj h1.symm) hk
            · exact h1
          · exact List.mem_cons_of_mem _
        rw [getD_set_ne d0 0 0 hk]
        simp only [hmm]

lemma wrapIdx_lt {bound : Nat} {v : Int} (h1 : -(bound : Int) ≤ v)
    (h2 : v < (bound : Int)) : wrapIdx bound v < bound := by
  unfold wrapIdx
  split <;> omega

lemma map_getD_range_eq {α : Type} (l : List α) (d : α) (start n : Nat)
    (h : start + n ≤ l.length) :
    (List.range n).map (fun k => l.getD (start + k) d) = (l.drop start).take n := by
  apply List.ext_getElem
  · simp
    omega
  · intro i h1 h2
    rw [List.getElem_map, List.getElem_range, List.getElem_take, List.getElem_drop]
    have hlen : i < n := by simpa using h1
    exact getD_of_lt _ _ (by omega)

lemma rowEntries_getElem_eq {m : CSR} {M N : Nat} (hwf : WF m M N) {r : Nat}
    (hr : r < M) {q : Nat} (hq : q < (rowEntries m r).length) :
    (rowEntries m r)[q] =
      (m.indices.getD (rowStart m r + q) 0, m.data.getD (rowStart m r + q) 0) := by
  have hlen := rowEntries_length hwf hr
  have hse := hwf.rowStart_le_rowEnd hr
  have hen := hwf.rowEnd_le_nnz hr
  have hq2 : q < rowEnd m r - rowStart m r := by omega
  have hzlen : (m.indices.zip m.data).length = m.data.length := by
    rw [List.length_zip, hwf.hlen, Nat.min_self]
  have hk : rowStart m r + q < m.data.length := by omega
  have hseg : rowEntries m r = (List.range (rowEnd m r - rowStart m r)).map
      (fun k => (m.indices.zip m.data).getD (rowStart m r + k) (0, 0)) := by
    rw [rowEntries]
    exact (map_getD_range_eq _ (0, 0) _ _ (by omega)).symm
  rw [← getD_of_lt (rowEntries m r) (0, 0) hq, hseg,
    getD_range_map _ _ hq2]
  have hzk : rowStart m r + q < (m.indices.zip m.data).length := by omega
  have hki : rowStart m r + q < m.indices.length := by rw [hwf.hlen]; omega
  rw [getD_of_lt _ _ hzk, List.getElem_zip, getD_of_lt _ _ hki, getD_of_lt _ _ hk]

lemma rowEntries_mem_getD {m : CSR} {M N : Nat} (hwf : WF m M N) {r : Nat}
    (hr : r < M) {c : Nat} {v : ℚ} (h : (c, v) ∈ rowEntries m r) :
    ∃ q < rowEnd m r - rowStart m r,
      m.indices.getD (rowStart m r + q) 0 = c ∧
      m.data.getD (rowStart m r + q) 0 = v := by
  obtain ⟨q, hq, heq⟩ := List.mem_iff_getElem.mp h
  have hlen := rowEntries_length hwf hr
  refine ⟨q, by omega, ?_, ?_⟩
  · rw [rowEntries_getElem_eq hwf hr hq] at heq
    exact congrArg Prod.fst heq
  · rw [rowEntries_getElem_eq hwf hr hq] at heq
    exact congrArg Prod.snd heq

lemma sampleOffset_eq_some {m : CSR} {M N : Nat} {iv jv : Int} {k : Nat}
    (h : sampleOffset m M N iv jv = some k) :
    rowStart m (wrapIdx M iv) ≤ k ∧ k < rowEnd m (wrapIdx M iv) ∧
      m.indices.getD k 0 = wrapIdx N jv := by
  unfold sampleOffset at h
  obtain ⟨q, hfind, hk⟩ := Option.map_eq_some'.mp h
  have hq1 : q ∈ List.range (rowEnd m (wrapIdx M iv) - rowStart m (wrapIdx M iv)) :=
    List.mem_of_find?_eq_some hfind
  have hq2 : q < rowEnd m (wrapIdx M iv) - rowStart m (wrapIdx M iv) :=
    List.mem_range.mp hq1
  have hp := List.find?_some hfind
  rw [decide_eq_true_eq] at hp
  subst hk
  exact ⟨Nat.le_add_right _ _, by omega, hp⟩

lemma sampleOffset_present {m : CSR} {M N : Nat} (hwf : WF m M N) {iv jv : Int}
    (hr : wrapIdx M iv < M) {v : ℚ}
    (hmem : (wrapIdx N jv, v) ∈ rowEntries m (wrapIdx M iv)) :
    ∃ k, sampleOffset m M N iv jv = some k := by
  obtain ⟨q, hq, hidx, _⟩ := rowEntries_mem_getD hwf hr hmem
  have : (List.range (rowEnd m (wrapIdx M iv) - rowStart m (wrapIdx M iv))).find?
      (fun q0 => m.indices.getD (rowStart m (wrapIdx M iv) + q0) 0 = wrapIdx N jv)
      |>.isSome := by
    rw [List.find?_isSome]
    exact ⟨q, List.mem_range.mpr hq, by simpa using hidx⟩
  obtain ⟨q0, hq0⟩ := Option.isSome_iff_exists.mp this
  exact ⟨rowStart m (wrapIdx M iv) + q0, by rw [sampleOffset, hq0]; rfl⟩

lemma check_bounds_ok {l : List Int} {bound : Nat} (hne : l ≠ [])
    (hb : ∀ v ∈ l, -(bound : Int) ≤ v ∧ v < (bound : Int)) :
    check_bounds l bound = Except.ok () := by
  have h1 : ¬ listMax l ≥ (bound : Int) := by
    have := hb (listMax l) (listMax_mem hne)
    omega
  have h2 : ¬ listMin l < -(bound : Int) := by
    have := hb (listMin l) (listMin_mem hne)
    omega
  rw [check_bounds, if_neg h1, if_neg h2]

/-- Claim C7: for an in-bounds batch, batch zero overwrites the data values
of coordinates present in the sparsity pattern with zero and leaves
`indices`, `indptr`, `nnz`, and every stored data value at a slot not named
by the batch unchanged; absent coordinates are ignored without insertion
(the structure equalities cover this). -/
theorem C7_zero_many_frame (m : CSR) (M N : Nat) (i j : List Int)
    (hwf : WF m M N)
    (hibnd : ∀ v ∈ i, -(M : Int) ≤ v ∧ v < (M : Int))
    (hjbnd : ∀ v ∈ j, -(N : Int) ≤ v ∧ v < (N : Int))
    (hi : i ≠ []) (hj : j ≠ []) :
    ∃ m1 : CSR, zero_many m M N i j = Except.ok m1 ∧
      m1.indices = m.indices ∧ m1.indptr = m.indptr ∧ nnz m1 = nnz m ∧
      (∀ p ∈ i.zip j, ∀ v : ℚ,
        (wrapIdx N p.2, v) ∈ rowEntries m (wrapIdx M p.1) →
        ∃ k, rowStart m (wrapIdx M p.1) ≤ k ∧ k < rowEnd m (wrapIdx M p.1) ∧
          m.indices.getD k 0 = wrapIdx N p.2 ∧ m1.data.getD k 0 = 0) ∧
      (∀ k, k < nnz m →
        (∀ p ∈ i.zip j, ¬(rowStart m (wrapIdx M p.1) ≤ k ∧
            k < rowEnd m (wrapIdx M p.1) ∧ m.indices.getD k 0 = wrapIdx N p.2)) →
        m1.data.getD k 0 = m.data.getD k 0) := by
  have hprep : prepare_indices M N i j = Except.ok (i, j) := by
    rw [prepare_indices, check_bounds_ok hi hibnd, check_bounds_ok hj hjbnd]
  refine ⟨⟨((i.zip j).map (fun p => sampleOffset m M N p.1 p.2)).foldl
      (fun d o => match o with | some k => d.set k 0 | none => d) m.data,
      m.indices, m.indptr⟩,
    by rw [zero_many, hprep], rfl, rfl, ?_, ?_, ?_⟩
  · simp only [nnz, foldl_zero_length]
  · intro p hp v hmem
    have hrlt : wrapIdx M p.1 < M := by
      have := hibnd p.1 (List.of_mem_zip hp).1
      exact wrapIdx_lt this.1 this.2
    obtain ⟨k, hk⟩ := sampleOffset_present hwf hrlt hmem
    obtain ⟨hk1, hk2, hk3⟩ := sampleOffset_eq_some hk
    refine ⟨k, hk1, hk2, hk3, ?_⟩
    have hmemoff : some k ∈ (i.zip j).map (fun p => sampleOffset m M N p.1 p.2) := by
      rw [List.mem_map]
      exact ⟨p, hp, hk⟩
    simp only [foldl_zero_getD, hmemoff, if_pos]
  · intro k hk hnone
    have hnotmem : some k ∉ (i.zip j).map (fun p => sampleOffset m M N p.1 p.2) := by
      rw [List.mem_map]
      rintro ⟨p, hp, hoff⟩
      exact hnone p hp (sampleOffset_eq_some hoff)
    simp only [foldl_zero_getD, hnotmem, if_false]

theorem C7_zero_many_frame_witness :
    ∃ m1 : CSR, zero_many ⟨[5, 6], [1, 2], [0, 1, 2]⟩ 2 3 [0, 0] [1, 0]
        = Except.ok m1 ∧
      m1.indices = [1, 2] ∧ m1.indptr = [0, 1, 2] ∧ nnz m1 = 2 ∧
      m1.data.getD 1 0 = 6 := by
  obtain ⟨m1, hok, hind, hptr, hnnz, _, hframe⟩ :=
    C7_zero_many_frame ⟨[5, 6], [1, 2], [0, 1, 2]⟩ 2 3 [0, 0] [1, 0]
      (by constructor <;> first | rfl | decide)
      (by decide) (by decide) (by decide) (by decide)
  refine ⟨m1, hok, hind, hptr, hnnz, ?_⟩
  have := hframe 1 (by decide) (by decide)
  rw [this]
  rfl

/-- Claim C5: scalar get at an in-pattern coordinate answers the stored value
(under the canonical at-most-one-entry-per-minor-index discipline of a row),
at an absent coordinate answers the additive identity 0, and is a pure
function of the matrix (it returns only a value, never a mutated matrix);
after the batch set `set(i=[1,3], j=[2,4], x=[7,9])` on an empty 5x5 matrix,
`get(1,2) = 7`, `get(3,4) = 9` and `get(0,0) = 0`. -/
theorem C5_scalar_get :
    (∀ (m : CSR) (r c : Nat) (v : ℚ),
      (∀ e1 ∈ rowEntries m r, ∀ e2 ∈ rowEntries m r, e1.1 = e2.1 → e1 = e2) →
      (c, v) ∈ rowEntries m r → get_intXint m r c = v) ∧
    (∀ (m : CSR) (r c : Nat),
      (∀ e ∈ rowEntries m r, e.1 ≠ c) → get_intXint m r c = 0) ∧
    (∃ m1 : CSR, set_many (emptyCSR 5) 5 5 [1, 3] [2, 4] [7, 9] = Except.ok m1 ∧
      get_intXint m1 1 2 = 7 ∧ get_intXint m1 3 4 = 9 ∧ get_intXint m1 0 0 = 0) := by
  refine ⟨?_, ?_, ⟨[7, 9], [2, 4], [0, 0, 1, 1, 2, 2]⟩, rfl, by decide, by decide, by decide⟩
  · intro m r c v huniq hmem
    have hfind : (rowEntries m r).find? (fun e => e.1 = c) = some (c, v) := by
      apply find?_eq_of_unique _ _ _ hmem (by simp)
      intro b hb hpb
      rw [decide_eq_true_eq] at hpb
      exact huniq b hb (c, v) hmem (by rw [hpb])
    rw [get_intXint, compress_getitem, hfind]
    rfl
  · intro m r c habs
    have hfind : (rowEntries m r).find? (fun e => e.1 = c) = none := by
      rw [List.find?_eq_none]
      intro a ha
      simpa using habs a ha
    rw [get_intXint, compress_getitem, hfind]
    rfl

theorem C5_scalar_get_witness :
    get_intXint ⟨[7, 9], [2, 4], [0, 0, 1, 1, 2, 2]⟩ 1 2 = 7 ∧
    get_intXint ⟨[7, 9], [2, 4], [0, 0, 1, 1, 2, 2]⟩ 0 0 = 0 := by
  constructor
  · exact C5_scalar_get.1 ⟨[7, 9], [2, 4], [0, 0, 1, 1, 2, 2]⟩ 1 2 7
      (by decide) (by decide)
  · exact C5_scalar_get.2.1 ⟨[7, 9], [2, 4], [0, 0, 1, 1, 2, 2]⟩ 0 0 (by decide)

lemma cumsum_getD (l : List Nat) {i : Nat} (h : i < l.length) :
    (cumsum l).getD i 0 = (l.take (i + 1)).sum := by
  rw [cumsum, getD_range_map _ _ h]

lemma cons_cumsum_getD (l : List Nat) {r : Nat} (h : r ≤ l.length) :
    ((0 :: cumsum l) : List Nat).getD r 0 = (l.take r).sum := by
  cases r with
  | zero => simp
  | succ s =>
    rw [List.getD_cons_succ, cumsum_getD l (by omega)]

lemma sum_take_succ_getD (l : List Nat) {r : Nat} (h : r < l.length) :
    (l.take (r + 1)).sum = (l.take r).sum + l.getD r 0 := by
  rw [getD_of_lt _ _ h, List.take_succ, List.getElem?_eq_getElem h, List.sum_append]
  simp

lemma sum_take_le (l : List Nat) (n : Nat) : (l.take n).sum ≤ l.sum := by
  conv_rhs => rw [← List.take_append_drop n l]
  rw [List.sum_append]
  omega

lemma foldl_bincount_length (idx : List Nat) (acc : List Nat) :
    (idx.foldl (fun cnt v => cnt.set v (cnt.getD v 0 + 1)) acc).length
      = acc.length := by
  induction idx generalizing acc with
  | nil => rfl
  | cons v t ih =>
    rw [show (v :: t).foldl _ acc = t.foldl (fun cnt v => cnt.set v (cnt.getD v 0 + 1))
        (acc.set v (acc.getD v 0 + 1)) from rfl, ih, List.length_set]

lemma bincount_length (N : Nat) (idx : List Nat) : (bincount N idx).length = N := by
  rw [bincount, foldl_bincount_length, List.length_replicate]

lemma foldl_bincount_getD (idx : List Nat) (acc : List Nat) {c : Nat}
    (hc : c < acc.length) (hb : ∀ u ∈ idx, u < acc.length) :
    (idx.foldl (fun cnt v => cnt.set v (cnt.getD v 0 + 1)) acc).getD c 0
      = acc.getD c 0 + idx.count c := by
  induction idx generalizing acc with
  | nil => simp
  | cons v t ih =>
    rw [show (v :: t).foldl _ acc = t.foldl (fun cnt v => cnt.set v (cnt.getD v 0 + 1))
        (acc.set v (acc.getD v 0 + 1)) from rfl]
    have hlen : (acc.set v (acc.getD v 0 + 1)).length = acc.length := by
      rw [List.length_set]
    rw [ih _ (by rw [hlen]; exact hc)
      (fun u hu => by rw [hlen]; exact hb u (List.mem_cons_of_mem v hu))]
    by_cases hv : v = c
    · subst hv
      rw [getD_set_self _ _ _ _ (hb v (List.mem_cons_self v t)),
        List.count_cons_self]
      omega
    · rw [getD_set_ne _ _ _ hv, List.count_cons_of_ne (Ne.symm hv)]

lemma bincount_getD (N : Nat) (idx : List Nat) {c : Nat} (hc : c < N)
    (hb : ∀ u ∈ idx, u < N) :
    (bincount N idx).getD c 0 = idx.count c := by
  rw [bincount, foldl_bincount_getD idx _ (by simpa using hc)
    (fun u hu => by simpa using hb u hu)]
  have hrep : (List.replicate N (0 : Nat)).getD c 0 = 0 := by
    rw [getD_of_lt _ _ (by simpa using hc)]
    exact List.getElem_replicate _ _
  rw [hrep, Nat.zero_add]

lemma posOf_cons (a : Nat) (t : List Nat) (c : Nat) :
    posOf (a :: t) c = (if a = c then [0] else []) ++ (posOf t c).map (· + 1) := by
  have h1 : posOf (a :: t) c =
      (0 :: (List.range t.length).map (· + 1)).filter
        (fun k => decide ((a :: t).getD k 0 = c)) := by
    rw [posOf, show (a :: t).length = t.length + 1 from rfl, List.range_succ_eq_map]
  have h2 : ((List.range t.length).map (· + 1)).filter
      (fun k => decide ((a :: t).getD k 0 = c)) = (posOf t c).map (· + 1) := by
    rw [List.filter_map]
    congr 1
  rw [h1, List.filter_cons, h2]
  by_cases hac : a = c
  · rw [if_pos (by simpa using hac), if_pos hac]
    rfl
  · rw [if_neg (by simpa using hac), if_neg hac, List.nil_append]

lemma posOf_length (idx : List Nat) (c : Nat) :
    (posOf idx c).length = idx.count c := by
  induction idx with
  | nil => rfl
  | cons a t ih =>
    rw [posOf_cons, List.length_append, List.length_map, ih]
    by_cases hac : a = c
    · subst hac
      rw [if_pos rfl, List.count_cons_self]
      simp only [List.length_cons, List.length_nil]
      omega
    · rw [if_neg hac, List.count_cons_of_ne (Ne.symm hac)]
      simp

lemma flatten_segment {α : Type} (ls : List (List α)) (r : Nat) :
    (ls.flatten.drop (((ls.take r).map List.length).sum)).take
      ((ls.getD r []).length) = ls.getD r [] := by
  induction ls generalizing r with
  | nil => simp
  | cons hd tl ih =>
    cases r with
    | zero =>
      simp only [List.take_zero, List.map_nil, List.sum_nil, List.drop_zero,
        List.getD_cons_zero, List.flatten_cons]
      exact List.take_left hd tl.flatten
    | succ s =>
      rw [List.getD_cons_succ, List.take_succ_cons, List.map_cons, List.sum_cons,
        List.flatten_cons]
      have hdrop : (hd ++ tl.flatten).drop
          (hd.length + ((tl.take s).map List.length).sum)
          = tl.flatten.drop (((tl.take s).map List.length).sum) := by
        simp [List.drop_append]
      rw [hdrop]
      exact ih s

lemma zip_map_fst_snd {α β : Type} (l : List (α × β)) :
    (l.map Prod.fst).zip (l.map Prod.snd) = l := by
  induction l with
  | nil => rfl
  | cons e t ih => simp [ih]

lemma bincount_take (N : Nat) (idx : List Nat) {c : Nat} (hc : c ≤ N)
    (hb : ∀ u ∈ idx, u < N) :
    (bincount N idx).take c = (List.range c).map (fun u => idx.count u) := by
  apply List.ext_getElem
  · simp [bincount_length]
    omega
  · intro i h1 h2
    rw [List.getElem_take, List.getElem_map, List.getElem_range]
    have hi : i < N := by
      simp only [List.length_take, bincount_length] at h1
      omega
    rw [← getD_of_lt _ 0 (by rw [bincount_length]; exact hi), bincount_getD N idx hi hb]

lemma group_prefix_sum (N : Nat) (idx : List Nat) {c : Nat} (hc : c ≤ N) :
    ((((List.range N).map (posOf idx)).take c).map List.length).sum
      = ((List.range c).map (fun u => idx.count u)).sum := by
  rw [← List.map_take, List.take_range, Nat.min_eq_left hc, List.map_map]
  congr 1
  apply List.map_congr_left
  intro v _
  exact posOf_length idx v

lemma argsort_length_eq (N : Nat) (idx : List Nat) :
    (argsortStable N idx).length = ((List.range N).map (fun u => idx.count u)).sum := by
  rw [show argsortStable N idx = ((List.range N).map (posOf idx)).flatten from rfl]
  rw [List.length_flatten, List.map_map]
  congr 1
  apply List.map_congr_left
  intro v _
  exact posOf_length idx v

lemma argsort_run (N : Nat) (idx : List Nat) {c : Nat} (hc : c < N)
    (hb : ∀ u ∈ idx, u < N) :
    (List.range ((cumsum (bincount N idx)).getD c 0 -
        (if c = 0 then 0 else (cumsum (bincount N idx)).getD (c - 1) 0))).map
      (fun k => (argsortStable N idx).getD
        ((if c = 0 then 0 else (cumsum (bincount N idx)).getD (c - 1) 0) + k) 0)
      = posOf idx c := by
  have hlenb : (bincount N idx).length = N := bincount_length N idx
  have hstop : (cumsum (bincount N idx)).getD c 0
      = ((List.range (c + 1)).map (fun u => idx.count u)).sum := by
    rw [cumsum_getD _ (by rw [hlenb]; exact hc), bincount_take N idx (by omega) hb]
  have hstart : (if c = 0 then 0 else (cumsum (bincount N idx)).getD (c - 1) 0)
      = ((List.range c).map (fun u => idx.count u)).sum := by
    cases c with
    | zero => simp
    | succ s =>
      rw [if_neg (Nat.succ_ne_zero s), Nat.succ_sub_one,
        cumsum_getD _ (by rw [hlenb]; omega), bincount_take N idx (by omega) hb]
  have hdiff : (cumsum (bincount N idx)).getD c 0 -
      (if c = 0 then 0 else (cumsum (bincount N idx)).getD (c - 1) 0)
      = idx.count c := by
    rw [hstop, hstart, List.range_succ, List.map_append, List.sum_append]
    simp
  have hbound : ((List.range c).map (fun u => idx.count u)).sum + idx.count c
      ≤ (argsortStable N idx).length := by
    rw [argsort_length_eq]
    have h1 : ((List.range (c + 1)).map (fun u => idx.count u)).sum
        ≤ ((List.range N).map (fun u => idx.count u)).sum := by
      have h2 : (List.range (c + 1)).map (fun u => idx.count u)
          = (((List.range N).map (fun u => idx.count u)).take (c + 1)) := by
        rw [← List.map_take, List.take_range, Nat.min_eq_left (by omega)]
      rw [h2]
      exact sum_take_le _ _
    rw [List.range_succ, List.map_append, List.sum_append] at h1
    simpa using h1
  rw [hdiff, hstart, map_getD_range_eq _ 0 _ _ hbound]
  have hseg := flatten_segment ((List.range N).map (posOf idx)) c
  rw [getD_range_map (posOf idx) ([] : List Nat) hc] at hseg
  rw [group_prefix_sum N idx (le_of_lt hc), posOf_length] at hseg
  exact hseg

lemma fillRowB_eq_flatMap (N : Nat) (idx : List Nat) (row : List (Nat × ℚ))
    (hb : ∀ u ∈ idx, u < N) (hrow : ∀ e ∈ row, e.1 < N) :
    fillRowB (cumsum (bincount N idx)) (argsortStable N idx) row
      = row.flatMap (fun e => (posOf idx e.1).map (fun k => (k, e.2))) := by
  rw [fillRowB]
  apply List.flatMap_congr
  intro e he
  have hrun := argsort_run N idx (hrow e he) hb
  calc (List.range ((cumsum (bincount N idx)).getD e.1 0 -
          (if e.1 = 0 then 0 else (cumsum (bincount N idx)).getD (e.1 - 1) 0))).map
        (fun k => ((argsortStable N idx).getD
          ((if e.1 = 0 then 0 else (cumsum (bincount N idx)).getD (e.1 - 1) 0) + k) 0,
          e.2))
      = ((List.range ((cumsum (bincount N idx)).getD e.1 0 -
          (if e.1 = 0 then 0 else (cumsum (bincount N idx)).getD (e.1 - 1) 0))).map
        (fun k => (argsortStable N idx).getD
          ((if e.1 = 0 then 0 else (cumsum (bincount N idx)).getD (e.1 - 1) 0) + k) 0)).map
        (fun k => (k, e.2)) := by
        rw [List.map_map]
        rfl
    _ = (posOf idx e.1).map (fun k => (k, e.2)) := by rw [hrun]

lemma fillRowB_length (N : Nat) (idx : List Nat) (row : List (Nat × ℚ))
    (hb : ∀ u ∈ idx, u < N) (hrow : ∀ e ∈ row, e.1 < N) :
    (fillRowB (cumsum (bincount N idx)) (argsortStable N idx) row).length
      = (row.map (fun e => (bincount N idx).getD e.1 0)).sum := by
  rw [fillRowB_eq_flatMap N idx row hb hrow, List.length_flatMap]
  congr 1
  apply List.map_congr_left
  intro e he
  simp only [Function.comp, List.length_map]
  rw [posOf_length, bincount_getD N idx (hrow e he) hb]

lemma rowEntries_data_nil (m : CSR) (r : Nat) (h : m.data = []) :
    rowEntries m r = [] := by
  rw [rowEntries, h, List.zip_nil_right]
  simp

lemma rowEntries_emptyCSR (M r : Nat) : rowEntries (emptyCSR M) r = [] :=
  rowEntries_data_nil _ _ rfl

/-- Claim C1: minor-axis fancy indexing produces a matrix in which every
stored entry `(c, v)` of a major row is duplicated once per occurrence of its
minor index `c` in `idx`, placed at the output minor position of that
occurrence (the positions `k` with `idx[k] = c`, in increasing order, in the
storage order of the source row); concretely, the 2x3 matrix with nonzeros
(0,1)=5 and (1,2)=6 indexed by `[1, 1, 2]` yields the 2x3 matrix with
(0,0)=5, (0,1)=5, (1,2)=6. -/
theorem C1_minor_index_fancy_spec :
    (∀ (m : CSR) (M N : Nat) (idx : List Nat), WF m M N → (∀ u ∈ idx, u < N) →
      ∀ r, r < M →
      rowEntries (minor_index_fancy m M N idx) r =
        (rowEntries m r).flatMap (fun e => (posOf idx e.1).map (fun k => (k, e.2)))) ∧
    minor_index_fancy ⟨[5, 6], [1, 2], [0, 1, 2]⟩ 2 3 [1, 1, 2] =
      ⟨[5, 5, 6], [0, 1, 2], [0, 2, 3]⟩ := by
  constructor
  · intro m M N idx hwf hb r hr
    by_cases h0 : m.data.length = 0 ∨ idx.length = 0
    · have hlhs : minor_index_fancy m M N idx = emptyCSR M := by
        rw [minor_index_fancy, if_pos h0]
      rw [hlhs, rowEntries_emptyCSR]
      rcases h0 with h0 | h0
      · rw [rowEntries_data_nil m r (List.length_eq_zero.mp h0)]
        rfl
      · have hidx : idx = [] := List.length_eq_zero.mp h0
        subst hidx
        rw [List.flatMap_eq_nil_iff.mpr]
        intro e _
        rw [show posOf [] e.1 = [] from rfl]
        rfl
    · have hlhs : minor_index_fancy m M N idx =
          ⟨((List.range M).map (fun r => fillRowB (cumsum (bincount N idx))
              (argsortStable N idx) (rowEntries m r))).flatten.map Prod.snd,
            ((List.range M).map (fun r => fillRowB (cumsum (bincount N idx))
              (argsortStable N idx) (rowEntries m r))).flatten.map Prod.fst,
            0 :: cumsum ((List.range M).map
              (fun r => rowKeptCount m (bincount N idx) r))⟩ := by
        rw [minor_index_fancy, if_neg h0]
      set rows : List (List (Nat × ℚ)) := (List.range M).map
        (fun r => fillRowB (cumsum (bincount N idx)) (argsortStable N idx)
          (rowEntries m r)) with hrows
      set lens : List Nat := (List.range M).map
        (fun r => rowKeptCount m (bincount N idx) r) with hlens
      have hrowcols : ∀ r0, ∀ e ∈ rowEntries m r0, e.1 < N :=
        fun r0 e he => hwf.hbound e.1 (rowEntries_col_mem he)
      have hlens_eq : lens = rows.map List.length := by
        rw [hlens, hrows, List.map_map]
        apply List.map_congr_left
        intro r0 _
        simp only [Function.comp]
        rw [fillRowB_length N idx _ hb (hrowcols r0), rowKeptCount]
      have hlenslen : lens.length = M := by rw [hlens, List.length_map, List.length_range]
      have hrowslen : rows.length = M := by rw [hrows, List.length_map, List.length_range]
      have hstart : rowStart (minor_index_fancy m M N idx) r = (lens.take r).sum := by
        rw [rowStart, hlhs]
        exact cons_cumsum_getD lens (by omega)
      have hend : rowEnd (minor_index_fancy m M N idx) r = (lens.take (r + 1)).sum := by
        rw [rowEnd, hlhs]
        exact cons_cumsum_getD lens (by omega)
      have hzip : (minor_index_fancy m M N idx).indices.zip
          (minor_index_fancy m M N idx).data = rows.flatten := by
        rw [hlhs]
        exact zip_map_fst_snd rows.flatten
      have htake : (lens.take (r + 1)).sum - (lens.take r).sum =
          (rows.getD r []).length := by
        rw [sum_take_succ_getD lens (by omega)]
        have : lens.getD r 0 = (rows.getD r []).length := by
          rw [hlens_eq, getD_of_lt _ _ (by rw [List.length_map]; omega),
            List.getElem_map, getD_of_lt _ _ (by omega)]
        omega
      rw [rowEntries, hstart, hend, hzip, htake]
      have hints : ((lens.take r).sum) = ((rows.take r).map List.length).sum := by
        rw [hlens_eq, List.map_take]
      rw [hints, flatten_segment rows r]
      rw [hrows, getD_range_map _ _ hr]
      exact fillRowB_eq_flatMap N idx _ hb (hrowcols r)
  · decide

theorem C1_minor_index_fancy_spec_witness :
    rowEntries (minor_index_fancy ⟨[5, 6], [1, 2], [0, 1, 2]⟩ 2 3 [1, 1, 2]) 0 =
      (rowEntries (⟨[5, 6], [1, 2], [0, 1, 2]⟩ : CSR) 0).flatMap
        (fun e => (posOf [1, 1, 2] e.1).map (fun k => (k, e.2))) :=
  C1_minor_index_fancy_spec.1 ⟨[5, 6], [1, 2], [0, 1, 2]⟩ 2 3 [1, 1, 2]
    ⟨rfl, rfl, rfl, rfl, rfl, by decide⟩ (by decide) 0 (by decide)

lemma mergeByIdxAux_length (fuel : Nat) (xs ys : List (Nat × ℚ)) :
    (mergeByIdxAux fuel xs ys).length = xs.length + ys.length := by
  induction fuel generalizing xs ys with
  | zero => simp [mergeByIdxAux]
  | succ fuel ih =>
    cases xs with
    | nil => simp [mergeByIdxAux]
    | cons xh xt =>
      cases ys with
      | nil => simp [mergeByIdxAux]
      | cons yh yt =>
        rw [mergeByIdxAux]
        split
        · simp only [List.length_cons, ih]
          omega
        · simp only [List.length_cons, ih]
          omega

lemma mergeByIdx_length (xs ys : List (Nat × ℚ)) :
    (mergeByIdx xs ys).length = xs.length + ys.length :=
  mergeByIdxAux_length _ xs ys

lemma mem_mergeByIdxAux (fuel : Nat) (xs ys : List (Nat × ℚ)) (a : Nat × ℚ) :
    a ∈ mergeByIdxAux fuel xs ys ↔ a ∈ xs ∨ a ∈ ys := by
  induction fuel generalizing xs ys with
  | zero => simp [mergeByIdxAux]
  | succ fuel ih =>
    cases xs with
    | nil => simp [mergeByIdxAux]
    | cons xh xt =>
      cases ys with
      | nil => simp [mergeByIdxAux]
      | cons yh yt =>
        rw [mergeByIdxAux]
        split
        · rw [List.mem_cons, ih]
          simp only [List.mem_cons]
          tauto
        · rw [List.mem_cons, ih]
          simp only [List.mem_cons]
          tauto

lemma mem_mergeByIdx (xs ys : List (Nat × ℚ)) (a : Nat × ℚ) :
    a ∈ mergeByIdx xs ys ↔ a ∈ xs ∨ a ∈ ys :=
  mem_mergeByIdxAux _ xs ys a

lemma foldl_scatter_length (pl : List (Nat × Nat)) (base : List Nat) :
    (pl.foldl (fun acc p => acc.set p.1 (acc.getD p.1 0 + p.2)) base).length
      = base.length := by
  induction pl generalizing base with
  | nil => rfl
  | cons p t ih =>
    rw [show (p :: t).foldl _ base = t.foldl (fun acc p => acc.set p.1 (acc.getD p.1 0 + p.2))
        (base.set p.1 (base.getD p.1 0 + p.2)) from rfl, ih, List.length_set]

lemma foldl_scatter_getD (pl : List (Nat × Nat)) (base : List Nat) {r : Nat}
    (hr : r < base.length) :
    (pl.foldl (fun acc p => acc.set p.1 (acc.getD p.1 0 + p.2)) base).getD r 0
      = base.getD r 0 + ((pl.filter (fun p => p.1 = r)).map (fun p => p.2)).sum := by
  induction pl generalizing base with
  | nil => simp
  | cons p t ih =>
    rw [show (p :: t).foldl _ base = t.foldl (fun acc p => acc.set p.1 (acc.getD p.1 0 + p.2))
        (base.set p.1 (base.getD p.1 0 + p.2)) from rfl]
    rw [ih _ (by rw [List.length_set]; exact hr), List.filter_cons]
    by_cases hp : p.1 = r
    · rw [if_pos (by simpa using hp), List.map_cons, List.sum_cons]
      subst hp
      rw [getD_set_self _ _ _ _ hr]
      omega
    · rw [if_neg (by simpa using hp), getD_set_ne _ _ _ hp]

lemma scatterAdd_length (base : List Nat) (pos vals : List Nat) :
    (scatterAdd base pos vals).length = base.length :=
  foldl_scatter_length _ base

lemma scatterAdd_getD (base : List Nat) (pos vals : List Nat) {r : Nat}
    (hr : r < base.length) :
    (scatterAdd base pos vals).getD r 0 = base.getD r 0 +
      (((pos.zip vals).filter (fun p => p.1 = r)).map (fun p => p.2)).sum :=
  foldl_scatter_getD _ base hr

lemma diffList_length (l : List Nat) : (diffList l).length = l.length - 1 := by
  induction l with
  | nil => rfl
  | cons a t ih =>
    cases t with
    | nil => rfl
    | cons b t2 =>
      rw [diffList, List.length_cons, ih]
      simp

lemma diffList_getD (l : List Nat) {r : Nat} (h : r + 1 < l.length) :
    (diffList l).getD r 0 = l.getD (r + 1) 0 - l.getD r 0 := by
  induction l generalizing r with
  | nil => simp at h
  | cons a t ih =>
    cases t with
    | nil => simp at h
    | cons b t2 =>
      cases r with
      | zero => rfl
      | succ s =>
        rw [diffList]
        simp only [List.getD_cons_succ]
        exact ih (by simpa using h)

lemma adj_mono_trans (f : Nat → Nat) (Mn : Nat)
    (hadj : ∀ r < Mn, f r ≤ f (r + 1)) :
    ∀ a b, a ≤ b → b ≤ Mn → f a ≤ f b := by
  intro a b hab hb
  induction b with
  | zero =>
    have : a = 0 := by omega
    subst this
    exact le_refl _
  | succ s ih =>
    rcases Nat.eq_or_lt_of_le hab with rfl | hlt
    · exact le_refl _
    · exact le_trans (ih (by omega) (by omega)) (hadj s (by omega))

lemma telescope_sum (f : Nat → Nat) (Mn : Nat)
    (hadj : ∀ r < Mn, f r ≤ f (r + 1)) :
    ((List.range Mn).map (fun r => f (r + 1) - f r)).sum = f Mn - f 0 := by
  induction Mn with
  | zero => simp
  | succ n ih =>
    rw [List.range_succ, List.map_append, List.sum_append]
    rw [ih (fun r hr => hadj r (by omega))]
    have h1 : f 0 ≤ f n := adj_mono_trans f (n + 1) hadj 0 n (by omega) (by omega)
    have h2 : f n ≤ f (n + 1) := hadj n (by omega)
    simp only [List.map_cons, List.map_nil, List.sum_cons, List.sum_nil]
    omega

lemma sum_indicator_range (a Mn : Nat) (h : a < Mn) :
    ((List.range Mn).map (fun r => if a = r then 1 else 0)).sum = 1 := by
  induction Mn with
  | zero => omega
  | succ n ih =>
    rw [List.range_succ, List.map_append, List.sum_append]
    by_cases han : a = n
    · subst han
      have hz : ((List.range a).map (fun r => if a = r then 1 else 0)).sum = 0 := by
        apply List.sum_eq_zero
        intro v hv
        obtain ⟨u, hu, huv⟩ := List.mem_map.mp hv
        have : a ≠ u := by
          have := List.mem_range.mp hu
          omega
        rw [if_neg this] at huv
        omega
      rw [hz]
      simp
    · rw [ih (by omega)]
      simp [han]

lemma sum_filter_partition {α : Type} (l : List α) (key : α → Nat) (Mn : Nat)
    (hb : ∀ a ∈ l, key a < Mn) :
    ((List.range Mn).map (fun r => (l.filter (fun a => key a = r)).length)).sum
      = l.length := by
  induction l with
  | nil => simp
  | cons a t ih =>
    have hsplit : ∀ r : Nat, ((a :: t).filter (fun e => key e = r)).length
        = (if key a = r then 1 else 0) + (t.filter (fun e => key e = r)).length := by
      intro r
      rw [List.filter_cons]
      by_cases hk : key a = r
      · rw [if_pos (by simpa using hk), if_pos hk, List.length_cons]
        omega
      · rw [if_neg (by simpa using hk), if_neg hk]
        omega
    have hmapeq : (List.range Mn).map (fun r => ((a :: t).filter (fun e => key e = r)).length)
        = (List.range Mn).map (fun r => (if key a = r then 1 else 0)
            + (t.filter (fun e => key e = r)).length) := by
      apply List.map_congr_left
      intro r _
      exact hsplit r
    rw [hmapeq, List.sum_map_add, sum_indicator_range (key a) Mn
      (hb a (List.mem_cons_self a t)), ih (fun e he => hb e (List.mem_cons_of_mem a he))]
    rw [List.length_cons]
    omega

lemma rows_csr_rowEntries (rows : List (List (Nat × ℚ))) (lens : List Nat)
    (hlens : lens = rows.map List.length) {r : Nat} (hr : r < rows.length) :
    rowEntries ⟨rows.flatten.map Prod.snd, rows.flatten.map Prod.fst,
        0 :: cumsum lens⟩ r = rows.getD r [] := by
  have hlenslen : lens.length = rows.length := by rw [hlens, List.length_map]
  have hstart : rowStart ⟨rows.flatten.map Prod.snd, rows.flatten.map Prod.fst,
      0 :: cumsum lens⟩ r = (lens.take r).sum :=
    cons_cumsum_getD lens (by omega)
  have hend : rowEnd ⟨rows.flatten.map Prod.snd, rows.flatten.map Prod.fst,
      0 :: cumsum lens⟩ r = (lens.take (r + 1)).sum :=
    cons_cumsum_getD lens (by omega)
  have htake : (lens.take (r + 1)).sum - (lens.take r).sum = (rows.getD r []).length := by
    rw [sum_take_succ_getD lens (by omega)]
    have : lens.getD r 0 = (rows.getD r []).length := by
      rw [hlens, getD_of_lt _ _ (by rw [List.length_map]; omega),
        List.getElem_map, getD_of_lt _ _ (by omega)]
    omega
  rw [rowEntries, hstart, hend, htake,
    show (⟨rows.flatten.map Prod.snd, rows.flatten.map Prod.fst,
      0 :: cumsum lens⟩ : CSR).indices = rows.flatten.map Prod.fst from rfl,
    show (⟨rows.flatten.map Prod.snd, rows.flatten.map Prod.fst,
      0 :: cumsum lens⟩ : CSR).data = rows.flatten.map Prod.snd from rfl,
    zip_map_fst_snd]
  have hints : (lens.take r).sum = ((rows.take r).map List.length).sum := by
    rw [hlens, List.map_take]
  rw [hints, flatten_segment rows r]

lemma getD_mem {α : Type} (l : List α) (d : α) {k : Nat} (h : k < l.length) :
    l.getD k d ∈ l := by
  rw [getD_of_lt _ _ h]
  exact List.getElem_mem h

lemma mem_posOf (idx : List Nat) (c k : Nat) :
    k ∈ posOf idx c ↔ k < idx.length ∧ idx.getD k 0 = c := by
  rw [posOf, List.mem_filter, List.mem_range]
  simp

lemma mem_argsortStable (Mn : Nat) (l : List Nat) (hb : ∀ u ∈ l, u < Mn) (k : Nat) :
    k ∈ argsortStable Mn l ↔ k < l.length := by
  rw [argsortStable, List.mem_flatMap]
  constructor
  · rintro ⟨v, _, hk⟩
    exact ((mem_posOf l v k).mp hk).1
  · intro hk
    refine ⟨l.getD k 0, ?_, (mem_posOf l _ k).mpr ⟨hk, rfl⟩⟩
    rw [List.mem_range]
    exact hb _ (getD_mem l 0 hk)

lemma flatMap_eq_single {α : Type} (n r : Nat) (f : Nat → List α) (hr : r < n)
    (h : ∀ v < n, v ≠ r → f v = []) : (List.range n).flatMap f = f r := by
  induction n with
  | zero => omega
  | succ n ih =>
    rw [List.range_succ, List.flatMap_append]
    by_cases hrn : r = n
    · subst hrn
      have h1 : (List.range r).flatMap f = [] := by
        rw [List.flatMap_eq_nil_iff]
        intro v hv
        have := List.mem_range.mp hv
        exact h v (by omega) (by omega)
      rw [h1]
      simp
    · rw [ih (by omega) (fun v hv hne => h v (by omega) hne)]
      have hfn : f n = [] := h n (by omega) (fun he => hrn he.symm)
      simp [hfn]

lemma argsort_filter_of_key (Mn : Nat) (l : List Nat) (hb : ∀ u ∈ l, u < Mn)
    (p : Nat → Bool) (r : Nat) (hr : r < Mn)
    (hp : ∀ k, k < l.length → p k = true → l.getD k 0 = r) :
    (argsortStable Mn l).filter p = (List.range l.length).filter p := by
  rw [argsortStable, List.filter_flatMap,
    flatMap_eq_single Mn r (fun v => (posOf l v).filter p) hr ?hempty]
  case hempty =>
    intro v _ hne
    rw [List.filter_eq_nil_iff]
    intro k hk hpk
    obtain ⟨hk1, hk2⟩ := (mem_posOf l v k).mp hk
    exact hne (by rw [← hk2, hp k hk1 hpk])
  rw [posOf, List.filter_filter]
  apply List.filter_congr
  intro k hk
  by_cases hpk : p k = true
  · rw [hpk, hp k (List.mem_range.mp hk) hpk]
    simp
  · rw [Bool.not_eq_true] at hpk
    rw [hpk]
    simp

lemma trip_filter (Mn : Nat) (i j : List Nat) (x : List ℚ)
    (hb : ∀ u ∈ i, u < Mn) (r c : Nat) (hr : r < Mn) :
    ((argsortStable Mn i).map (fun k => (i.getD k 0, j.getD k 0, x.getD k 0))).filter
      (fun t => (t.1, t.2.1) = (r, c))
    = ((List.range i.length).filter
        (fun k => decide (i.getD k 0 = r) && decide (j.getD k 0 = c))).map
        (fun k => (i.getD k 0, j.getD k 0, x.getD k 0)) := by
  rw [List.filter_map]
  have hpeq : ∀ k : Nat,
      ((fun t : Nat × Nat × ℚ => decide ((t.1, t.2.1) = (r, c))) ∘
        (fun k => (i.getD k 0, j.getD k 0, x.getD k 0))) k
      = (decide (i.getD k 0 = r) && decide (j.getD k 0 = c)) := by
    intro k
    by_cases h1 : i.getD k 0 = r <;> by_cases h2 : j.getD k 0 = c <;>
      simp [Function.comp, Prod.ext_iff, h1, h2]
  have hstep : (argsortStable Mn i).filter
      ((fun t : Nat × Nat × ℚ => decide ((t.1, t.2.1) = (r, c))) ∘
        (fun k => (i.getD k 0, j.getD k 0, x.getD k 0)))
      = (List.range i.length).filter
        ((fun t : Nat × Nat × ℚ => decide ((t.1, t.2.1) = (r, c))) ∘
          (fun k => (i.getD k 0, j.getD k 0, x.getD k 0))) := by
    apply argsort_filter_of_key Mn i hb _ r hr
    intro k _ hpk
    rw [hpeq k] at hpk
    have := Bool.and_eq_true_iff.mp hpk
    exact of_decide_eq_true this.1
  rw [hstep]
  congr 1
  apply List.filter_congr
  intro k _
  exact hpeq k

lemma filter_range_getLast? (n : Nat) (p : Nat → Bool) (t : Nat) (ht : t < n)
    (hpt : p t = true) (hlast : ∀ u, t < u → u < n → p u = false) :
    ((List.range n).filter p).getLast? = some t := by
  induction n with
  | zero => omega
  | succ n ih =>
    rw [List.range_succ, List.filter_append]
    by_cases htn : t = n
    · subst htn
      have hsing : [t].filter p = [t] := by simp [List.filter_cons, hpt]
      rw [hsing, List.getLast?_concat]
    · have hn : p n = false := hlast n (by omega) (by omega)
      have hsing : [n].filter p = [] := by simp [List.filter_cons, hn]
      rw [hsing, List.append_nil]
      exact ih (by omega) (fun u hu1 hu2 => hlast u hu1 (by omega))

lemma lastVal_last_batch (Mn : Nat) (i j : List Nat) (x : List ℚ)
    (hb : ∀ u ∈ i, u < Mn)
    {t : Nat} (ht : t < i.length)
    (hlast : ∀ u, t < u → u < i.length →
      ¬(i.getD u 0 = i.getD t 0 ∧ j.getD u 0 = j.getD t 0)) :
    lastVal ((argsortStable Mn i).map (fun k => (i.getD k 0, j.getD k 0, x.getD k 0)))
      (i.getD t 0, j.getD t 0) = x.getD t 0 := by
  rw [lastVal, trip_filter Mn i j x hb _ _ (hb _ (getD_mem i 0 ht)), List.map_map]
  have hfl : ((List.range i.length).filter
      (fun k => decide (i.getD k 0 = i.getD t 0) &&
        decide (j.getD k 0 = j.getD t 0))).getLast? = some t := by
    apply filter_range_getLast? _ _ t ht (by simp)
    intro u hu1 hu2
    have hcon := hlast u hu1 hu2
    by_cases h1 : i.getD u 0 = i.getD t 0
    · by_cases h2 : j.getD u 0 = j.getD t 0
      · exact absurd ⟨h1, h2⟩ hcon
      · rw [decide_eq_false h2, Bool.and_false]
    · rw [decide_eq_false h1, Bool.false_and]
  rw [List.getLastD_eq_getLast?, List.getLast?_map, hfl]
  rfl

lemma selectLast_filter_row (Mn Nn : Nat) (ps : List (Nat × Nat × ℚ)) {r : Nat}
    (hr : r < Mn) :
    (selectLast Mn Nn ps).filter (fun t => t.1 = r)
      = ((List.range Nn).filter
          (fun c => decide ((r, c) ∈ ps.map (fun t => (t.1, t.2.1))))).map
          (fun c => (r, c, lastVal ps (r, c))) := by
  rw [selectLast, List.filter_flatMap,
    flatMap_eq_single Mn r _ hr ?hother]
  case hother =>
    intro v _ hne
    rw [List.filter_eq_nil_iff]
    intro tt htt
    obtain ⟨c, _, rfl⟩ := List.mem_map.mp htt
    simpa using hne
  apply List.filter_eq_self.mpr
  intro tt htt
  obtain ⟨c, _, rfl⟩ := List.mem_map.mp htt
  simp

lemma selectLast_fst_lt (Mn Nn : Nat) (ps : List (Nat × Nat × ℚ)) :
    ∀ tt ∈ selectLast Mn Nn ps, tt.1 < Mn := by
  intro tt htt
  rw [selectLast, List.mem_flatMap] at htt
  obtain ⟨r, hr, htt2⟩ := htt
  obtain ⟨c, _, rfl⟩ := List.mem_map.mp htt2
  exact List.mem_range.mp hr

lemma mem_zip_getD (i j : List Nat) (hlj : j.length = i.length) (a b : Nat) :
    (a, b) ∈ i.zip j ↔ ∃ k, k < i.length ∧ i.getD k 0 = a ∧ j.getD k 0 = b := by
  rw [List.mem_iff_getElem]
  constructor
  · rintro ⟨k, hk, heq⟩
    have hk2 : k < i.length := by
      simp only [List.length_zip] at hk
      omega
    rw [List.getElem_zip] at heq
    refine ⟨k, hk2, ?_, ?_⟩
    · rw [getD_of_lt _ _ hk2]
      exact congrArg Prod.fst heq
    · rw [getD_of_lt _ _ (by omega)]
      exact congrArg Prod.snd heq
  · rintro ⟨k, hk, ha, hb2⟩
    refine ⟨k, by simp only [List.length_zip]; omega, ?_⟩
    rw [List.getElem_zip]
    rw [getD_of_lt _ _ hk] at ha
    rw [getD_of_lt _ _ (by omega)] at hb2
    rw [ha, hb2]

lemma trips_keys_mem (Mn : Nat) (i j : List Nat) (x : List ℚ)
    (hbi : ∀ u ∈ i, u < Mn) (a b : Nat) :
    (a, b) ∈ ((argsortStable Mn i).map
        (fun k => (i.getD k 0, j.getD k 0, x.getD k 0))).map (fun t => (t.1, t.2.1))
      ↔ ∃ k, k < i.length ∧ i.getD k 0 = a ∧ j.getD k 0 = b := by
  rw [List.map_map, List.mem_map]
  constructor
  · rintro ⟨k, hk, heq⟩
    have hk2 : k < i.length := (mem_argsortStable Mn i hbi k).mp hk
    refine ⟨k, hk2, ?_, ?_⟩
    · exact congrArg Prod.fst heq
    · exact congrArg (fun p => p.2) heq
  · rintro ⟨k, hk, ha, hb2⟩
    refine ⟨k, (mem_argsortStable Mn i hbi k).mpr hk, ?_⟩
    simp only [Function.comp]
    rw [ha, hb2]

lemma selectLast_length_eq_dedup (Mn Nn : Nat) (i j : List Nat) (x : List ℚ)
    (hbi : ∀ u ∈ i, u < Mn) (hbj : ∀ u ∈ j, u < Nn) (hlj : j.length = i.length) :
    (selectLast Mn Nn ((argsortStable Mn i).map
        (fun k => (i.getD k 0, j.getD k 0, x.getD k 0)))).length
      = (i.zip j).dedup.length := by
  set keys := ((argsortStable Mn i).map
    (fun k => (i.getD k 0, j.getD k 0, x.getD k 0))).map (fun t => (t.1, t.2.1))
    with hkeys
  set keysEnum : List (Nat × Nat) := (List.range Mn).flatMap
    (fun r => ((List.range Nn).filter (fun c => decide ((r, c) ∈ keys))).map
      (fun c => (r, c))) with hkeysEnum
  have hlen1 : (selectLast Mn Nn ((argsortStable Mn i).map
      (fun k => (i.getD k 0, j.getD k 0, x.getD k 0)))).length = keysEnum.length := by
    rw [selectLast, hkeysEnum, List.length_flatMap, List.length_flatMap]
    congr 1
    apply List.map_congr_left
    intro r _
    simp only [Function.comp, List.length_map]
  have hmemEnum : ∀ rc : Nat × Nat, rc ∈ keysEnum ↔ rc ∈ i.zip j := by
    intro rc
    have hkeyiff : rc ∈ keys ↔ rc ∈ i.zip j := by
      obtain ⟨a, b⟩ := rc
      rw [hkeys, trips_keys_mem Mn i j x hbi a b, mem_zip_getD i j hlj a b]
    rw [hkeysEnum, List.mem_flatMap]
    constructor
    · rintro ⟨r, _, hmem2⟩
      obtain ⟨c, hc, rfl⟩ := List.mem_map.mp hmem2
      have := List.mem_filter.mp hc
      rw [← hkeyiff]
      exact of_decide_eq_true this.2
    · intro hmem
      rw [← hkeyiff] at hmem
      obtain ⟨a, b⟩ := rc
      have ha : a < Mn := by
        obtain ⟨k, hk, hik, _⟩ := (trips_keys_mem Mn i j x hbi a b).mp hmem
        rw [← hik]
        exact hbi _ (getD_mem i 0 hk)
      have hb2 : b < Nn := by
        obtain ⟨k, hk, _, hjk⟩ := (trips_keys_mem Mn i j x hbi a b).mp hmem
        rw [← hjk]
        exact hbj _ (getD_mem j 0 (by omega))
      refine ⟨a, List.mem_range.mpr ha, ?_⟩
      rw [List.mem_map]
      refine ⟨b, ?_, rfl⟩
      rw [List.mem_filter]
      exact ⟨List.mem_range.mpr hb2, decide_eq_true hmem⟩
  have hnodupEnum : keysEnum.Nodup := by
    rw [hkeysEnum, List.nodup_flatMap]
    constructor
    · intro r _
      apply List.Nodup.map
      · intro c1 c2 hc
        exact (Prod.mk.injEq _ _ _ _).mp hc |>.2
      · exact (List.nodup_range Nn).filter _
    · have hpw := List.pairwise_lt_range Mn
      apply hpw.imp
      intro a b hab
      intro rc h1 h2
      obtain ⟨c1, _, rfl⟩ := List.mem_map.mp h1
      obtain ⟨c2, _, heq⟩ := List.mem_map.mp h2
      have := (Prod.mk.injEq _ _ _ _).mp heq
      omega
  rw [hlen1]
  exact ((List.perm_ext_iff_of_nodup hnodupEnum (List.nodup_dedup _)).mpr
    (fun rc => by rw [List.mem_dedup]; exact hmemEnum rc)).length_eq

lemma zip_map_filter_nodup (d : List Nat) (f : Nat → Nat) (r : Nat) (hnd : d.Nodup) :
    (((d.zip (d.map f)).filter (fun p => p.1 = r)).map (fun p => p.2)).sum
      = if r ∈ d then f r else 0 := by
  induction d with
  | nil => simp
  | cons a t ih =>
    have hnd2 := List.nodup_cons.mp hnd
    rw [show (a :: t).map f = f a :: t.map f from rfl,
      List.zip_cons_cons, List.filter_cons]
    by_cases har : a = r
    · subst har
      rw [if_pos (by simp), List.map_cons, List.sum_cons, ih hnd2.2,
        if_neg hnd2.1, if_pos (List.mem_cons_self a t)]
      omega
    · rw [if_neg (by simpa using har), ih hnd2.2]
      have : (r ∈ a :: t) ↔ (r ∈ t) := by
        rw [List.mem_cons]
        constructor
        · rintro (rfl | h)
          · exact absurd rfl har
          · exact h
        · exact Or.inr
      by_cases hrt : r ∈ t
      · rw [if_pos hrt, if_pos (this.mpr hrt)]
      · rw [if_neg hrt, if_neg (fun hh => hrt (this.mp hh))]

lemma count_map_fst (l : List (Nat × Nat × ℚ)) (r : Nat) :
    (l.map (fun t => t.1)).count r = (l.filter (fun t => t.1 = r)).length := by
  induction l with
  | nil => rfl
  | cons a t ih =>
    rw [List.map_cons, List.filter_cons]
    by_cases h : a.1 = r
    · rw [if_pos (by simpa using h), List.length_cons, ← ih, h,
        List.count_cons_self]
    · rw [if_neg (by simpa using h), ← ih, List.count_cons_of_ne (Ne.symm h)]

/-- Claim C2: batch insertion of brand-new coordinates keeps, for (i,j) pairs
that occur several times in the batch, only the value of the last occurrence
in batch order (last write wins, values are not summed), and the matrix's
`nnz` after the insertion is the old `nnz` plus the number of distinct
inserted coordinates. -/
theorem C2_insert_many_spec :
    ∀ (m : CSR) (M N : Nat) (i j : List Nat) (x : List ℚ),
      WF m M N →
      j.length = i.length → x.length = i.length →
      (∀ u ∈ i, u < M) → (∀ u ∈ j, u < N) →
      (∀ t, t < i.length → ∀ e ∈ rowEntries m (i.getD t 0), e.1 ≠ j.getD t 0) →
      nnz (insert_many m M N i j x) = nnz m + (i.zip j).dedup.length ∧
      (∀ t, t < i.length →
        (∀ u, t < u → u < i.length →
          ¬(i.getD u 0 = i.getD t 0 ∧ j.getD u 0 = j.getD t 0)) →
        lookupRow (insert_many m M N i j x) (i.getD t 0) (j.getD t 0)
          = some (x.getD t 0)) := by
  intro m M N i j x hwf hlj hlx hbi hbj hnew
  set trips := (argsortStable M i).map
    (fun k => (i.getD k 0, j.getD k 0, x.getD k 0)) with htrips
  set ins := selectLast M N trips with hinsdef
  set ii := ins.map (fun t => t.1) with hii
  set dif2 := scatterAdd (diffList m.indptr) ii.dedup
    (ii.dedup.map (fun r => ii.count r)) with hdif2
  set rowsNew := (List.range M).map (fun r => mergeByIdx (rowEntries m r)
    ((ins.filter (fun t => t.1 = r)).map (fun t => (t.2.1, t.2.2)))) with hrowsNew
  have hres : insert_many m M N i j x =
      ⟨rowsNew.flatten.map Prod.snd, rowsNew.flatten.map Prod.fst,
        0 :: cumsum dif2⟩ := rfl
  have hinslt : ∀ tt ∈ ins, tt.1 < M := by
    rw [hinsdef]
    exact selectLast_fst_lt M N trips
  have hcount : ∀ r : Nat, ii.count r = (ins.filter (fun t => t.1 = r)).length := by
    intro r
    rw [hii]
    exact count_map_fst ins r
  have hlensA : rowsNew.map List.length = (List.range M).map
      (fun r => (rowEnd m r - rowStart m r) +
        (ins.filter (fun t => t.1 = r)).length) := by
    rw [hrowsNew, List.map_map]
    apply List.map_congr_left
    intro r hr
    simp only [Function.comp]
    rw [mergeByIdx_length, rowEntries_length hwf (List.mem_range.mp hr),
      List.length_map]
  have hlensB : dif2 = (List.range M).map
      (fun r => (rowEnd m r - rowStart m r) + ii.count r) := by
    apply List.ext_getElem
    · rw [hdif2, scatterAdd_length, diffList_length, hwf.hptr, List.length_map,
        List.length_range]
      omega
    · intro r h1 h2
      have hr : r < M := by
        rw [hdif2, scatterAdd_length, diffList_length, hwf.hptr] at h1
        omega
      rw [← getD_of_lt _ 0 h1, ← getD_of_lt _ 0 h2, getD_range_map _ _ hr,
        hdif2, scatterAdd_getD _ _ _ (by rw [diffList_length, hwf.hptr]; omega),
        zip_map_filter_nodup _ _ _ (List.nodup_dedup ii)]
      have hiir : (if r ∈ ii.dedup then ii.count r else 0) = ii.count r := by
        by_cases hmem : r ∈ ii.dedup
        · rw [if_pos hmem]
        · rw [if_neg hmem,
            List.count_eq_zero.mpr (fun hc => hmem (List.mem_dedup.mpr hc))]
      rw [hiir, diffList_getD _ (by rw [hwf.hptr]; omega)]
      rfl
  have hdif2_eq : dif2 = rowsNew.map List.length := by
    rw [hlensB, hlensA]
    apply List.map_congr_left
    intro r _
    rw [hcount r]
  have hrowsNewlen : rowsNew.length = M := by
    rw [hrowsNew, List.length_map, List.length_range]
  constructor
  · rw [hres, nnz, show (⟨rowsNew.flatten.map Prod.snd, rowsNew.flatten.map Prod.fst,
      0 :: cumsum dif2⟩ : CSR).data = rowsNew.flatten.map Prod.snd from rfl,
      List.length_map, List.length_flatten, hlensA]
    have hsplit : ((List.range M).map (fun r => (rowEnd m r - rowStart m r) +
        (ins.filter (fun t => t.1 = r)).length)).sum
        = ((List.range M).map (fun r => rowEnd m r - rowStart m r)).sum +
          ((List.range M).map (fun r => (ins.filter (fun t => t.1 = r)).length)).sum :=
      List.sum_map_add
    rw [hsplit]
    have htel : ((List.range M).map (fun r => rowEnd m r - rowStart m r)).sum
        = nnz m := by
      have h2 : ((List.range M).map
          (fun r => m.indptr.getD (r + 1) 0 - m.indptr.getD r 0)).sum
          = m.indptr.getD M 0 - m.indptr.getD 0 0 :=
        telescope_sum (fun q => m.indptr.getD q 0) M
          (fun r hr => hwf.indptr_getD_mono (Nat.le_succ r) (by omega))
      rw [hwf.indptr_getD_M, hwf.indptr_getD_zero] at h2
      rw [show ((List.range M).map (fun r => rowEnd m r - rowStart m r))
        = ((List.range M).map (fun r => m.indptr.getD (r + 1) 0 - m.indptr.getD r 0))
        from rfl, h2, nnz]
      omega
    have hpart : ((List.range M).map
        (fun r => (ins.filter (fun t => t.1 = r)).length)).sum = ins.length :=
      sum_filter_partition ins (fun t => t.1) M hinslt
    rw [htel, hpart, hinsdef, htrips,
      selectLast_length_eq_dedup M N i j x hbi hbj hlj]
  · intro t ht hlastt
    have hr : i.getD t 0 < M := hbi _ (getD_mem i 0 ht)
    have hc : j.getD t 0 < N := hbj _ (getD_mem j 0 (by omega))
    have hrowEnt : rowEntries (insert_many m M N i j x) (i.getD t 0)
        = mergeByIdx (rowEntries m (i.getD t 0))
          ((ins.filter (fun tt => tt.1 = i.getD t 0)).map
            (fun tt => (tt.2.1, tt.2.2))) := by
      rw [hres, rows_csr_rowEntries rowsNew dif2 hdif2_eq (by omega), hrowsNew,
        getD_range_map _ _ hr]
    have hinsRow : (ins.filter (fun tt => tt.1 = i.getD t 0)).map
        (fun tt => (tt.2.1, tt.2.2))
        = ((List.range N).filter
            (fun c => decide ((i.getD t 0, c) ∈ trips.map (fun tt => (tt.1, tt.2.1))))).map
          (fun c => (c, lastVal trips (i.getD t 0, c))) := by
      rw [hinsdef, selectLast_filter_row M N trips hr, List.map_map]
      rfl
    have hmemkey : (i.getD t 0, j.getD t 0) ∈ trips.map (fun tt => (tt.1, tt.2.1)) := by
      rw [htrips]
      exact (trips_keys_mem M i j x hbi _ _).mpr ⟨t, ht, rfl, rfl⟩
    have hmem_insRow : (j.getD t 0, lastVal trips (i.getD t 0, j.getD t 0)) ∈
        (ins.filter (fun tt => tt.1 = i.getD t 0)).map (fun tt => (tt.2.1, tt.2.2)) := by
      rw [hinsRow, List.mem_map]
      refine ⟨j.getD t 0, ?_, rfl⟩
      rw [List.mem_filter]
      exact ⟨List.mem_range.mpr hc, decide_eq_true hmemkey⟩
    have hmerge_mem : (j.getD t 0, lastVal trips (i.getD t 0, j.getD t 0)) ∈
        mergeByIdx (rowEntries m (i.getD t 0))
          ((ins.filter (fun tt => tt.1 = i.getD t 0)).map (fun tt => (tt.2.1, tt.2.2))) :=
      (mem_mergeByIdx _ _ _).mpr (Or.inr hmem_insRow)
    have huniq : ∀ b ∈ mergeByIdx (rowEntries m (i.getD t 0))
        ((ins.filter (fun tt => tt.1 = i.getD t 0)).map (fun tt => (tt.2.1, tt.2.2))),
        (fun e : Nat × ℚ => decide (e.1 = j.getD t 0)) b = true →
        b = (j.getD t 0, lastVal trips (i.getD t 0, j.getD t 0)) := by
      intro b hb hpb
      have hbc : b.1 = j.getD t 0 := of_decide_eq_true hpb
      rcases (mem_mergeByIdx _ _ _).mp hb with hold | hins2
      · exact absurd hbc (hnew t ht b hold)
      · rw [hinsRow, List.mem_map] at hins2
        obtain ⟨c2, _, rfl⟩ := hins2
        simp only at hbc
        rw [hbc]
    have hfind := find?_eq_of_unique _ (fun e : Nat × ℚ => decide (e.1 = j.getD t 0))
      _ hmerge_mem (by simp) huniq
    rw [lookupRow, hrowEnt, hfind]
    have hlval : lastVal trips (i.getD t 0, j.getD t 0) = x.getD t 0 := by
      rw [htrips]
      exact lastVal_last_batch M i j x hbi ht hlastt
    rw [Option.map_some', hlval]

theorem C2_insert_many_spec_witness :
    nnz (insert_many ⟨[5], [1], [0, 1, 1]⟩ 2 3 [1, 1] [2, 2] [4, 8])
      = nnz (⟨[5], [1], [0, 1, 1]⟩ : CSR) + ([1, 1].zip [2, 2]).dedup.length ∧
    lookupRow (insert_many ⟨[5], [1], [0, 1, 1]⟩ 2 3 [1, 1] [2, 2] [4, 8]) 1 2
      = some 8 := by
  obtain ⟨h1, h2⟩ := C2_insert_many_spec ⟨[5], [1], [0, 1, 1]⟩ 2 3 [1, 1] [2, 2] [4, 8]
    ⟨rfl, rfl, rfl, rfl, rfl, by decide⟩ rfl rfl (by decide) (by decide)
    (by intro t ht
        have ht2 : t < 2 := by simpa using ht
        interval_cases t <;> decide)
  exact ⟨h1, h2 1 (by decide)
    (by intro u hu1 hu2
        have hu3 : u < 2 := by simpa using hu2
        omega)⟩

end CupySparse
